import Mathlib

/-!
The program recsolver: an exact solver for `a(n) = r a(n-1) + s a(n-2) + t`

A shallow embedding of `src/main.cpp`.

* In the definitions of the first part, C++ `int` is modelled by `Int`: they describe the
  program as long as no `int` operation overflows (the design assumes that the products formed
  by the operators of `splnum` fit the machine word).
* The namespace `Machine` restates the same source lines over 32-bit two's-complement `int`.
  It is used where overflow decides the result: the probe `mid * mid` of `sqrt` overflows for
  inputs of the solvers as small as `r = 307`, `s = -306`.
* C++ `/` and `%` on `int` truncate towards zero: they are `Int.tdiv` and `Int.tmod`.
* An integer division by zero is undefined behaviour.  The only divisors are the
  results of `std::__gcd` inside the constructors, which are nonzero whenever the denominator
  passed to the constructor is nonzero (`gcd_ne_zero_right`).
* `throw std::runtime_error(..)` is modelled by `Except.error`, with one `Error` constructor
  for each of the two messages of the source.
* The two solver procedures print their results; the embedding returns the values that are
  printed, and `splnum.print` is the text that `operator<<` writes for one value.
-/

namespace Recsolver

/-! ## `sqrt` (main.cpp, lines 29-47) -/

/-- Body of the recursive function `sqrt(m, start, end)` over unbounded integers, with an
explicit recursion budget: `none` is returned only when the budget is exhausted.  It is the
function of the source as long as `start + end` and `mid * mid` do not overflow, which holds in
the call `sqrt(c, 0, 1)` of `checkC`; `Machine.sqrtFuel` is the function over 32-bit `int`. -/
def sqrtFuel : Nat → Int → Int → Int → Option Int
  | 0, _, _, _ => none
  | fuel + 1, m, start, end_ =>
    if start > end_ then some (-1)
    else if start = end_ then
      if start * start = m then some start else some (-1)
    else
      let mid := (start + end_).tdiv 2
      let mid_sq := mid * mid
      if mid_sq = m then some mid
      else if mid_sq > m then sqrtFuel fuel m start (mid - 1)
      else sqrtFuel fuel m (mid + 1) end_

/-- The function `sqrt(m, start, end)`.  The budget `end - start + 1` is never exhausted
(`sqrtFuel_sqrt`), so the default of `getD` is never used. -/
def sqrt (m start end_ : Int) : Int :=
  (sqrtFuel ((end_ - start).toNat + 1) m start end_).getD (-1)

/-! ## `std::__gcd` (libstdc++, `bits/stl_algo.h`) -/

/-- The loop of `std::__gcd(m, n)`: `while (n != 0) { t = m % n; m = n; n = t; } return m;`
with an explicit iteration budget; `none` is returned only when the budget is exhausted. -/
def gcdFuel : Nat → Int → Int → Option Int
  | 0, _, _ => none
  | fuel + 1, m, n => if n ≠ 0 then gcdFuel fuel n (m.tmod n) else some m

/-- The library function `std::__gcd(m, n)`.  It takes no absolute values, so its result can be
negative.  The budget `|n| + 1` is never exhausted (`gcdFuel_gcd`). -/
def __gcd (m n : Int) : Int :=
  (gcdFuel (n.natAbs + 1) m n).getD 0

/-! ## `class splnum` (main.cpp, lines 54-192) -/

/-- The two `std::runtime_error`s thrown by the source. -/
inductive Error where
  /-- The message "Math error: Division by zero is undefined". -/
  | divisionByZero
  /-- The message "Error: Operating different kinds of splnums is not supported". -/
  | differentKinds
  deriving DecidableEq, Repr

/-- The private fields `int a, b, c, d` of `splnum`: the number `(a + b * root(c)) / d`. -/
structure splnum where
  a : Int
  b : Int
  c : Int
  d : Int
  deriving DecidableEq, Repr

namespace splnum

/-- The method `checkC()` (lines 178-190); note the call `sqrt(c, 0, 1)`. -/
def checkC (x : splnum) : splnum :=
  if x.c ≠ 0 then
    let sqrt_c := sqrt x.c 0 1
    if sqrt_c ≠ -1 then
      let a := x.a + x.b * sqrt_c
      let gcd_ := __gcd a x.d
      { a := a.tdiv gcd_, b := 0, c := 0, d := x.d.tdiv gcd_ }
    else x
  else x

/-- Lines 74-79 of the four-argument constructor: divide by the gcd, then `checkC()`. -/
def reduce4 (a b c d : Int) : splnum :=
  let gcd_ := __gcd (__gcd a b) d
  checkC { a := a.tdiv gcd_, b := b.tdiv gcd_, c := c, d := d.tdiv gcd_ }

/-- The constructor `splnum(int a, int b, int c, int d)` (lines 66-80). -/
def splnum4 (a b c d : Int) : Except Error splnum :=
  if d = 0 then .error .divisionByZero
  else if d < 0 then .ok (reduce4 (-a) (-b) c (-d))
  else .ok (reduce4 a b c d)

/-- The constructor `splnum(int a)` (lines 87-91). -/
def splnum1 (a : Int) : splnum :=
  { a := a, b := 0, c := 0, d := 1 }

/-- Lines 106-115 of the two-argument constructor.  (The statement `b = -b` of line 104 acts
on a field that line 114 overwrites; it has no effect on the value built.) -/
def reduce2 (a d : Int) : splnum :=
  let gcd_ := __gcd a d
  let a := a.tdiv gcd_
  let d := d.tdiv gcd_
  if d < 0 then { a := -a, b := 0, c := 0, d := -d }
  else { a := a, b := 0, c := 0, d := d }

/-- The constructor `splnum(int a, int d)` (lines 98-116). -/
def splnum2 (a d : Int) : Except Error splnum :=
  if d = 0 then .error .divisionByZero
  else if d < 0 then .ok (reduce2 (-a) (-d))
  else .ok (reduce2 a d)

/-- The method `inverse()` (lines 122-124). -/
def inverse (x : splnum) : Except Error splnum :=
  splnum4 (x.d * x.a) (-x.d * x.b) x.c (x.a * x.a - x.b * x.b * x.c)

/-- The unary `operator-` (lines 126-128). -/
def neg (x : splnum) : Except Error splnum :=
  splnum4 (-x.a) (-x.b) x.c x.d

/-- The binary `operator+` (lines 130-140). -/
def add (x other : splnum) : Except Error splnum :=
  if x.c = 0 ∨ x.b = 0 then
    splnum4 (x.a * other.d + other.a * x.d) (x.d * other.b) other.c (x.d * other.d)
  else if other.c = 0 ∨ other.b = 0 then
    splnum4 (other.a * x.d + x.a * other.d) (other.d * x.b) x.c (other.d * x.d)
  else if x.c = other.c then
    splnum4 (x.a * other.d + other.a * x.d) (x.b * other.d + other.b * x.d) x.c (x.d * other.d)
  else .error .differentKinds

/-- The binary `operator-` (lines 142-144). -/
def sub (x other : splnum) : Except Error splnum := do
  let y ← neg other
  add x y

/-- The binary `operator*` (lines 146-156). -/
def mul (x other : splnum) : Except Error splnum :=
  if x.c = 0 ∨ x.b = 0 then
    splnum4 (x.a * other.a) (x.a * other.b) other.c (x.d * other.d)
  else if other.c = 0 ∨ other.b = 0 then
    splnum4 (other.a * x.a) (other.a * x.b) x.c (other.d * x.d)
  else if x.c = other.c then
    splnum4 (x.a * other.a + x.b * other.b * x.c) (x.a * other.b + other.a * x.b) x.c
      (x.d * other.d)
  else .error .differentKinds

/-- The binary `operator/` (lines 158-160). -/
def div (x other : splnum) : Except Error splnum := do
  let y ← inverse other
  mul x y

/-- The comparison `operator==` (lines 162-164). -/
def eq (x other : splnum) : Bool :=
  decide (x.c = other.c) && decide (x.a * other.d = x.d * other.a)
    && decide (x.b * other.d = x.d * other.b)

/-- The comparison `operator!=` (lines 166-168). -/
def ne (x other : splnum) : Bool :=
  !(eq x other)

/-- The text written by `operator<<(std::ostream&, const splnum&)` (lines 194-225); an `int` is
written in decimal, with a leading `-` when negative. -/
def print (x : splnum) : String :=
  (if x.a ≠ 0 then
      (if x.b ≠ 0 ∧ x.c ≠ 0 then "(" else "") ++ toString x.a ++
        (if x.b > 0 ∧ x.c ≠ 0 then " + " ++ (if x.b ≠ 1 then toString x.b ++ " " else "")
          else if x.b < 0 ∧ x.c ≠ 0 then
            " - " ++ (if x.b ≠ -1 then toString (-x.b) ++ " " else "")
          else "")
    else if x.b ≠ 0 ∧ x.c ≠ 0 then
      (if x.b = -1 then "-" else if x.b = 1 then "" else toString x.b ++ " ")
    else "") ++
  (if x.c ≠ 0 ∧ x.b ≠ 0 then "sqrt(" ++ toString x.c ++ ")" else "") ++
  (if x.a ≠ 0 ∧ x.b ≠ 0 ∧ x.c ≠ 0 then ")" else "") ++
  (if x.d ≠ 1 then " / " ++ toString x.d else "")

end splnum

open splnum

/-! ## `findroots` (main.cpp, lines 233-243) -/

/-- The procedure `findroots(r, s, roots)` over unbounded integers; the result is
`(roots[0], roots[1])`.  `Machine.findroots` is the procedure over 32-bit `int`. -/
def findroots (r s : Int) : Except Error (splnum × splnum) :=
  let delta := r * r + 4 * s
  let sqrt_delta := sqrt delta 0 delta
  if sqrt_delta = -1 then do
    let x0 ← splnum4 r 1 delta 2
    let x1 ← splnum4 r (-1) delta 2
    pure (x0, x1)
  else do
    let x0 ← splnum4 (r + sqrt_delta) 0 0 2
    let x1 ← splnum4 (r - sqrt_delta) 0 0 2
    pure (x0, x1)

/-! ## `solvehomogeneous` and `solvenonhomogeneous` (main.cpp, lines 253-324) -/

/-- What the "Homogeneous solution" line prints: `[u] [x1]^n + [v] [x2]^n` in the branch of
distinct roots, `[(v)n + (u)] [x]^n` in the other branch. -/
inductive Homogeneous where
  | distinct (u v x1 x2 : splnum)
  | repeated (u v x : splnum)
  deriving DecidableEq, Repr

/-- Lines 263-272 (and again 314-323): the homogeneous part for roots `(x0, x1)` and initial
terms `a0`, `a1`, which are already `splnum` values. -/
def homogeneousPart (x0 x1 a0 a1 : splnum) : Except Error Homogeneous :=
  if ne x0 x1 then do
    let u ← (do div (← sub (← mul x1 a0) a1) (← sub x1 x0))
    let v ← (do div (← sub (← mul x0 a0) a1) (← sub x0 x1))
    pure (.distinct u v x0 x1)
  else do
    let u := a0
    let v ← (do sub (← div a1 x0) u)
    pure (.repeated u v x0)

/-- The procedure `solvehomogeneous(r, s, a0, a1)` over unbounded integers. -/
def solvehomogeneous (r s a0 a1 : Int) : Except Error Homogeneous := do
  let roots ← findroots r s
  homogeneousPart roots.1 roots.2 (splnum1 a0) (splnum1 a1)

/-- What the "Particular solution" line prints: `C`, `[C] n^2` or `[C] n`. -/
inductive Particular where
  | constant (C : splnum)
  | nSquared (C : splnum)
  | nLinear (C : splnum)
  deriving DecidableEq, Repr

/-- The two printed parts of the solution of the nonhomogeneous recurrence. -/
structure Nonhomogeneous where
  particular : Particular
  homogeneous : Homogeneous
  deriving DecidableEq, Repr

/-- The procedure `solvenonhomogeneous(r, s, t, a0, a1)` over unbounded integers. -/
def solvenonhomogeneous (r s t a0 a1 : Int) : Except Error Nonhomogeneous := do
  let roots ← findroots r s
  let a0_ := splnum1 a0
  let a1_ := splnum1 a1
  if ne roots.1 (splnum1 1) && ne roots.2 (splnum1 1) then do
    let constant ← splnum2 t (1 - r - s)
    let a0_ ← sub (splnum1 a0) constant
    let a1_ ← sub a1_ constant
    let h ← homogeneousPart roots.1 roots.2 a0_ a1_
    pure { particular := .constant constant, homogeneous := h }
  else if eq roots.1 (splnum1 1) && eq roots.2 (splnum1 1) then do
    let n_coeff ← splnum2 (-t) (r + 4 * s)
    let a1_ ← sub a1_ n_coeff
    let h ← homogeneousPart roots.1 roots.2 a0_ a1_
    pure { particular := .nSquared n_coeff, homogeneous := h }
  else do
    let n2_coeff ← splnum2 t (r + 2 * s)
    let a1_ ← sub a1_ n2_coeff
    let h ← homogeneousPart roots.1 roots.2 a0_ a1_
    pure { particular := .nLinear n2_coeff, homogeneous := h }


/-! ## The numbers denoted by `splnum` values

The formal numbers `p + q * root(D)` with rational `p`, `q` and a fixed integer `D`, as a
commutative ring: the arithmetic that the operators of `splnum` are meant to implement. -/

/-- A formal number `re + im * root(D)`. -/
@[ext]
structure QSurd (D : Int) where
  re : ℚ
  im : ℚ

namespace QSurd

variable {D : Int}

/-- Componentwise sum. -/
def add (x y : QSurd D) : QSurd D := ⟨x.re + y.re, x.im + y.im⟩

/-- Componentwise opposite. -/
def neg (x : QSurd D) : QSurd D := ⟨-x.re, -x.im⟩

/-- Product, with `root(D) * root(D) = D`. -/
def mul (x y : QSurd D) : QSurd D :=
  ⟨x.re * y.re + D * x.im * y.im, x.re * y.im + x.im * y.re⟩

instance : Zero (QSurd D) := ⟨⟨0, 0⟩⟩

instance : One (QSurd D) := ⟨⟨1, 0⟩⟩

instance : Add (QSurd D) := ⟨add⟩

instance : Neg (QSurd D) := ⟨neg⟩

instance : Mul (QSurd D) := ⟨mul⟩

instance : CommRing (QSurd D) :=
  CommRing.ofMinimalAxioms
    (fun x y z => QSurd.ext (add_assoc x.re y.re z.re) (add_assoc x.im y.im z.im))
    (fun x => QSurd.ext (zero_add x.re) (zero_add x.im))
    (fun x => QSurd.ext (neg_add_cancel x.re) (neg_add_cancel x.im))
    (fun x y z => by
      show mul (mul x y) z = mul x (mul y z)
      simp only [mul]
      exact QSurd.ext (by ring) (by ring))
    (fun x y => by
      show mul x y = mul y x
      simp only [mul]
      exact QSurd.ext (by ring) (by ring))
    (fun x => by
      show mul ⟨1, 0⟩ x = x
      simp only [mul]
      exact QSurd.ext (by ring) (by ring))
    (fun x y z => by
      show mul x (add y z) = add (mul x y) (mul x z)
      simp only [mul, add]
      exact QSurd.ext (by ring) (by ring))

/-- The rational number `p` as a formal number. -/
def ofRat (p : ℚ) : QSurd D := ⟨p, 0⟩

/-- The norm `re^2 - D * im^2`; a formal number with nonzero norm has an inverse. -/
def norm (z : QSurd D) : ℚ := z.re * z.re - D * z.im * z.im

end QSurd

/-- The formal number denoted by the fields `(a, b, c, d)` when `c` is `0` or `D`. -/
def value (D : Int) (x : splnum) : QSurd D := ⟨(x.a : ℚ) / x.d, (x.b : ℚ) / x.d⟩

/-- The values that occur while solving a recurrence whose discriminant has the non-square
part `D`: nonzero denominator, radicand `0` or `D`, and no stray `b` beside `c = 0`. -/
def Good (D : Int) (x : splnum) : Prop :=
  x.d ≠ 0 ∧ (x.c = 0 ∨ x.c = D) ∧ (x.c = 0 → x.b = 0)

/-- The printed homogeneous solution `h` is built on the roots `x0`, `x1` and its coefficients
solve the two equations of the initial terms `A0`, `A1`. -/
def Solves (D : Int) (h : Homogeneous) (x0 x1 : splnum) (A0 A1 : QSurd D) : Prop :=
  (∃ u v, h = .distinct u v x0 x1 ∧ Good D u ∧ Good D v ∧
      value D u + value D v = A0 ∧
      value D u * value D x0 + value D v * value D x1 = A1) ∨
    (∃ u v, h = .repeated u v x0 ∧ Good D u ∧ Good D v ∧ value D u = A0 ∧
      (value D u + value D v) * value D x0 = A1)

/-- The value `x` represents the integer `k`: rational part `a = k * d` and no surd part. -/
def represents (x : splnum) (k : Int) : Prop :=
  x.a = k * x.d ∧ (x.b = 0 ∨ x.c = 0)

instance (x : splnum) (k : Int) : Decidable (represents x k) :=
  inferInstanceAs (Decidable (_ ∧ _))

/-- The term at `n = 0` of the printed homogeneous solution, computed with the operators of
`splnum`: `u + v` for distinct roots, `u` for a repeated root. -/
def Homogeneous.initial0 : Homogeneous → Except Error splnum
  | .distinct u v _ _ => add u v
  | .repeated u _ _ => pure u

/-- The term at `n = 1` of the printed homogeneous solution, computed with the operators of
`splnum`: `u * x1 + v * x2` for distinct roots, `(u + v) * x` for a repeated root. -/
def Homogeneous.initial1 : Homogeneous → Except Error splnum
  | .distinct u v x1 x2 => do add (← mul u x1) (← mul v x2)
  | .repeated u v x => do mul (← add u v) x

/-- The power `x^n`, computed with `operator*`. -/
def splnum.pow (x : splnum) : Nat → Except Error splnum
  | 0 => pure (splnum1 1)
  | n + 1 => do mul (← splnum.pow x n) x

/-- The printed particular solution at `n`: `C`, `C * n^2` or `C * n`. -/
def Particular.term : Particular → Nat → Except Error splnum
  | .constant C, _ => pure C
  | .nSquared C, n => mul C (splnum1 ((n : Int) * n))
  | .nLinear C, n => mul C (splnum1 n)

/-- The printed homogeneous solution at `n`: `u * x1^n + v * x2^n` for distinct roots,
`(v * n + u) * x^n` for a repeated root. -/
def Homogeneous.term : Homogeneous → Nat → Except Error splnum
  | .distinct u v x1 x2, n => do
    add (← mul u (← splnum.pow x1 n)) (← mul v (← splnum.pow x2 n))
  | .repeated u v x, n => do
    mul (← add (← mul v (splnum1 n)) u) (← splnum.pow x n)

/-- The printed full solution at `n`: particular term plus homogeneous term. -/
def Nonhomogeneous.term (sol : Nonhomogeneous) (n : Nat) : Except Error splnum := do
  add (← sol.particular.term n) (← sol.homogeneous.term n)

/-- The rational number `a / d` denoted by a value without surd part. -/
def splnum.toRat (x : splnum) : ℚ := (x.a : ℚ) / x.d

/-- The printed particular solution at `n`, as a rational number. -/
def Particular.eval : Particular → ℚ → ℚ
  | .constant C, _ => C.toRat
  | .nSquared C, n => C.toRat * n ^ 2
  | .nLinear C, n => C.toRat * n

/-- The expression `x * x - r * x - s`, computed with the operators of `splnum`, the integers
`r` and `s` being converted by `splnum(int)`. -/
def characteristic (r s : Int) (x : splnum) : Except Error splnum := do
  sub (← sub (← mul x x) (← mul (splnum1 r) x)) (splnum1 s)

/-- The values built by one of the three constructors of `splnum` (the four-argument and the
two-argument constructor return a value only for a nonzero denominator). -/
def Constructed (x : splnum) : Prop :=
  (∃ a b c d, splnum4 a b c d = .ok x) ∨ (∃ a d, splnum2 a d = .ok x) ∨ (∃ a, splnum1 a = x)

/-- The operand has a surd part: `b != 0` and `c != 0`. -/
def hasSurd (x : splnum) : Prop := x.b ≠ 0 ∧ x.c ≠ 0

instance (x : splnum) : Decidable (hasSurd x) :=
  inferInstanceAs (Decidable (_ ∧ _))

/-- The computation returns a value of the solver, or raises the division-by-zero error. -/
def Fine (D : Int) (e : Except Error splnum) : Prop :=
  (∃ z, e = .ok z ∧ Good D z) ∨ e = .error .divisionByZero

/-- The computation returns a result, or raises the division-by-zero error. -/
def NoKind {α : Type} (e : Except Error α) : Prop :=
  (∃ z, e = .ok z) ∨ e = .error .divisionByZero

/-! ## The same source over 32-bit `int`

The definitions above compute over unbounded integers.  The namespace `Machine` restates the
same source lines over a 32-bit two's-complement `int`: every `+`, `-` and `*` is reduced by
`wrap`.  (`wrap` commutes with sums and products, so an expression of the source is reduced
once, at its end.)  The library function `std::__gcd` only uses `%`, and is shared. -/

namespace Machine

/-- The value of an `int` expression with 32-bit two's-complement `int`. -/
def wrap (x : Int) : Int :=
  (x + 2147483648) % 4294967296 - 2147483648

/-- Body of `sqrt(m, start, end)` (lines 29-47) over 32-bit `int`, with an explicit recursion
budget: `none` is returned only when the budget is exhausted. -/
def sqrtFuel : Nat → Int → Int → Int → Option Int
  | 0, _, _, _ => none
  | fuel + 1, m, start, end_ =>
    if start > end_ then some (-1)
    else if start = end_ then
      if wrap (start * start) = m then some start else some (-1)
    else
      let mid := (wrap (start + end_)).tdiv 2
      let mid_sq := wrap (mid * mid)
      if mid_sq = m then some mid
      else if mid_sq > m then sqrtFuel fuel m start (wrap (mid - 1))
      else sqrtFuel fuel m (wrap (mid + 1)) end_

/-- The function `sqrt(m, start, end)` over 32-bit `int`.  For `0 ≤ start` and `end < 2^30`
the sum `start + end` does not overflow and the budget `end - start + 1` is never exhausted
(`machine_sqrtFuel_total`). -/
def sqrt (m start end_ : Int) : Int :=
  (sqrtFuel ((end_ - start).toNat + 1) m start end_).getD (-1)

/-- The method `checkC()` (lines 178-190) over 32-bit `int`. -/
def checkC (x : splnum) : splnum :=
  if x.c ≠ 0 then
    let sqrt_c := Machine.sqrt x.c 0 1
    if sqrt_c ≠ -1 then
      let a := wrap (x.a + x.b * sqrt_c)
      let gcd_ := __gcd a x.d
      { a := a.tdiv gcd_, b := 0, c := 0, d := x.d.tdiv gcd_ }
    else x
  else x

/-- Lines 74-79 of the four-argument constructor over 32-bit `int`. -/
def reduce4 (a b c d : Int) : splnum :=
  let gcd_ := __gcd (__gcd a b) d
  Machine.checkC { a := a.tdiv gcd_, b := b.tdiv gcd_, c := c, d := d.tdiv gcd_ }

/-- The constructor `splnum(int a, int b, int c, int d)` (lines 66-80) over 32-bit `int`. -/
def splnum4 (a b c d : Int) : Except Error splnum :=
  if d = 0 then .error .divisionByZero
  else if d < 0 then .ok (Machine.reduce4 (wrap (-a)) (wrap (-b)) c (wrap (-d)))
  else .ok (Machine.reduce4 a b c d)

/-- Lines 106-115 of the two-argument constructor over 32-bit `int`. -/
def reduce2 (a d : Int) : splnum :=
  let gcd_ := __gcd a d
  let a := a.tdiv gcd_
  let d := d.tdiv gcd_
  if d < 0 then { a := wrap (-a), b := 0, c := 0, d := wrap (-d) }
  else { a := a, b := 0, c := 0, d := d }

/-- The constructor `splnum(int a, int d)` (lines 98-116) over 32-bit `int`. -/
def splnum2 (a d : Int) : Except Error splnum :=
  if d = 0 then .error .divisionByZero
  else if d < 0 then .ok (Machine.reduce2 (wrap (-a)) (wrap (-d)))
  else .ok (Machine.reduce2 a d)

/-- The method `inverse()` (lines 122-124) over 32-bit `int`. -/
def inverse (x : splnum) : Except Error splnum :=
  Machine.splnum4 (wrap (x.d * x.a)) (wrap (-x.d * x.b)) x.c
    (wrap (x.a * x.a - x.b * x.b * x.c))

/-- The unary `operator-` (lines 126-128) over 32-bit `int`. -/
def neg (x : splnum) : Except Error splnum :=
  Machine.splnum4 (wrap (-x.a)) (wrap (-x.b)) x.c x.d

/-- The binary `operator+` (lines 130-140) over 32-bit `int`. -/
def add (x other : splnum) : Except Error splnum :=
  if x.c = 0 ∨ x.b = 0 then
    Machine.splnum4 (wrap (x.a * other.d + other.a * x.d)) (wrap (x.d * other.b)) other.c
      (wrap (x.d * other.d))
  else if other.c = 0 ∨ other.b = 0 then
    Machine.splnum4 (wrap (other.a * x.d + x.a * other.d)) (wrap (other.d * x.b)) x.c
      (wrap (other.d * x.d))
  else if x.c = other.c then
    Machine.splnum4 (wrap (x.a * other.d + other.a * x.d)) (wrap (x.b * other.d + other.b * x.d))
      x.c (wrap (x.d * other.d))
  else .error .differentKinds

/-- The binary `operator-` (lines 142-144) over 32-bit `int`. -/
def sub (x other : splnum) : Except Error splnum := do
  let y ← Machine.neg other
  Machine.add x y

/-- The binary `operator*` (lines 146-156) over 32-bit `int`. -/
def mul (x other : splnum) : Except Error splnum :=
  if x.c = 0 ∨ x.b = 0 then
    Machine.splnum4 (wrap (x.a * other.a)) (wrap (x.a * other.b)) other.c (wrap (x.d * other.d))
  else if other.c = 0 ∨ other.b = 0 then
    Machine.splnum4 (wrap (other.a * x.a)) (wrap (other.a * x.b)) x.c (wrap (other.d * x.d))
  else if x.c = other.c then
    Machine.splnum4 (wrap (x.a * other.a + x.b * other.b * x.c))
      (wrap (x.a * other.b + other.a * x.b)) x.c (wrap (x.d * other.d))
  else .error .differentKinds

/-- The binary `operator/` (lines 158-160) over 32-bit `int`. -/
def div (x other : splnum) : Except Error splnum := do
  let y ← Machine.inverse other
  Machine.mul x y

/-- The comparison `operator==` (lines 162-164) over 32-bit `int`. -/
def eq (x other : splnum) : Bool :=
  decide (x.c = other.c) && decide (wrap (x.a * other.d) = wrap (x.d * other.a))
    && decide (wrap (x.b * other.d) = wrap (x.d * other.b))

/-- The comparison `operator!=` (lines 166-168) over 32-bit `int`. -/
def ne (x other : splnum) : Bool :=
  !(Machine.eq x other)

/-- The procedure `findroots(r, s, roots)` (lines 233-243) over 32-bit `int`. -/
def findroots (r s : Int) : Except Error (splnum × splnum) :=
  let delta := wrap (r * r + 4 * s)
  let sqrt_delta := Machine.sqrt delta 0 delta
  if sqrt_delta = -1 then do
    let x0 ← Machine.splnum4 r 1 delta 2
    let x1 ← Machine.splnum4 r (-1) delta 2
    pure (x0, x1)
  else do
    let x0 ← Machine.splnum4 (wrap (r + sqrt_delta)) 0 0 2
    let x1 ← Machine.splnum4 (wrap (r - sqrt_delta)) 0 0 2
    pure (x0, x1)

/-- Lines 263-272 (and again 314-323) over 32-bit `int`. -/
def homogeneousPart (x0 x1 a0 a1 : splnum) : Except Error Homogeneous :=
  if Machine.ne x0 x1 then do
    let u ← (do Machine.div (← Machine.sub (← Machine.mul x1 a0) a1) (← Machine.sub x1 x0))
    let v ← (do Machine.div (← Machine.sub (← Machine.mul x0 a0) a1) (← Machine.sub x0 x1))
    pure (.distinct u v x0 x1)
  else do
    let u := a0
    let v ← (do Machine.sub (← Machine.div a1 x0) u)
    pure (.repeated u v x0)

/-- The procedure `solvehomogeneous(r, s, a0, a1)` over 32-bit `int`. -/
def solvehomogeneous (r s a0 a1 : Int) : Except Error Homogeneous := do
  let roots ← Machine.findroots r s
  Machine.homogeneousPart roots.1 roots.2 (splnum1 a0) (splnum1 a1)

/-- The procedure `solvenonhomogeneous(r, s, t, a0, a1)` over 32-bit `int`. -/
def solvenonhomogeneous (r s t a0 a1 : Int) : Except Error Nonhomogeneous := do
  let roots ← Machine.findroots r s
  let a0_ := splnum1 a0
  let a1_ := splnum1 a1
  if Machine.ne roots.1 (splnum1 1) && Machine.ne roots.2 (splnum1 1) then do
    let constant ← Machine.splnum2 t (wrap (1 - r - s))
    let a0_ ← Machine.sub (splnum1 a0) constant
    let a1_ ← Machine.sub a1_ constant
    let h ← Machine.homogeneousPart roots.1 roots.2 a0_ a1_
    pure { particular := .constant constant, homogeneous := h }
  else if Machine.eq roots.1 (splnum1 1) && Machine.eq roots.2 (splnum1 1) then do
    let n_coeff ← Machine.splnum2 (wrap (-t)) (wrap (r + 4 * s))
    let a1_ ← Machine.sub a1_ n_coeff
    let h ← Machine.homogeneousPart roots.1 roots.2 a0_ a1_
    pure { particular := .nSquared n_coeff, homogeneous := h }
  else do
    let n2_coeff ← Machine.splnum2 t (wrap (r + 2 * s))
    let a1_ ← Machine.sub a1_ n2_coeff
    let h ← Machine.homogeneousPart roots.1 roots.2 a0_ a1_
    pure { particular := .nLinear n2_coeff, homogeneous := h }

/-- The expression `x * x - r * x - s`, computed with the operators over 32-bit `int`. -/
def characteristic (r s : Int) (x : splnum) : Except Error splnum := do
  Machine.sub (← Machine.sub (← Machine.mul x x) (← Machine.mul (splnum1 r) x)) (splnum1 s)

end Machine

/-! ## Auxiliary facts on truncated division -/

theorem natAbs_tmod (m n : Int) : (m.tmod n).natAbs = m.natAbs % n.natAbs := by
  cases m <;> cases n <;> simp [Int.tmod] <;> rfl

theorem tdiv_two_bounds (x : Int) : 2 * x.tdiv 2 ≤ x + 1 ∧ x - 1 ≤ 2 * x.tdiv 2 := by
  rcases le_total 0 x with h | h
  · rw [Int.tdiv_eq_ediv h (by decide)]; omega
  · obtain ⟨y, rfl⟩ : ∃ y, x = -y := ⟨-x, by simp⟩
    have hy : 0 ≤ y := by omega
    rw [Int.neg_tdiv, Int.tdiv_eq_ediv hy (by decide)]; omega

theorem tdiv_mul_mul_nonneg (k m n : Int) (hk : 0 < k) (hm : 0 ≤ m) (hn : 0 ≤ n) :
    (k * m).tdiv (k * n) = m.tdiv n := by
  rw [Int.tdiv_eq_ediv (by positivity) (by positivity), Int.tdiv_eq_ediv hm hn,
    Int.mul_ediv_mul_of_pos _ _ hk]

theorem tdiv_mul_mul_pos (k m n : Int) (hk : 0 < k) : (k * m).tdiv (k * n) = m.tdiv n := by
  rcases le_total 0 m with hm | hm <;> rcases le_total 0 n with hn | hn
  · exact tdiv_mul_mul_nonneg k m n hk hm hn
  · have := tdiv_mul_mul_nonneg k m (-n) hk hm (by omega)
    rw [mul_neg, Int.tdiv_neg, Int.tdiv_neg] at this
    omega
  · have := tdiv_mul_mul_nonneg k (-m) n hk (by omega) hn
    rw [mul_neg, Int.neg_tdiv, Int.neg_tdiv] at this
    omega
  · have := tdiv_mul_mul_nonneg k (-m) (-n) hk (by omega) (by omega)
    rw [mul_neg, mul_neg, Int.neg_tdiv_neg, Int.neg_tdiv_neg] at this
    exact this

theorem tdiv_mul_mul (k m n : Int) (hk : k ≠ 0) : (k * m).tdiv (k * n) = m.tdiv n := by
  rcases lt_or_gt_of_ne hk with h | h
  · have := tdiv_mul_mul_pos (-k) m n (by omega)
    rw [neg_mul, neg_mul, Int.neg_tdiv_neg] at this
    exact this
  · exact tdiv_mul_mul_pos k m n h

theorem tmod_mul_mul (k m n : Int) : (k * m).tmod (k * n) = k * m.tmod n := by
  by_cases hk : k = 0
  · subst hk; simp
  · rw [Int.tmod_def, Int.tmod_def, tdiv_mul_mul k m n hk]; ring

/-! ## Facts on `sqrt` -/

theorem sqrtFuel_step (fuel : Nat) (m start end_ : Int) :
    sqrtFuel (fuel + 1) m start end_ =
      if start > end_ then some (-1)
      else if start = end_ then (if start * start = m then some start else some (-1))
      else if (start + end_).tdiv 2 * (start + end_).tdiv 2 = m then
        some ((start + end_).tdiv 2)
      else if (start + end_).tdiv 2 * (start + end_).tdiv 2 > m then
        sqrtFuel fuel m start ((start + end_).tdiv 2 - 1)
      else sqrtFuel fuel m ((start + end_).tdiv 2 + 1) end_ := rfl

/-- One more unit of budget does not change a result already obtained. -/
theorem sqrtFuel_succ (fuel : Nat) (m start end_ v : Int)
    (h : sqrtFuel fuel m start end_ = some v) : sqrtFuel (fuel + 1) m start end_ = some v := by
  induction fuel generalizing start end_ with
  | zero => simp [sqrtFuel] at h
  | succ n ih =>
    rw [sqrtFuel_step] at h ⊢
    split_ifs at h ⊢ <;> first | exact h | exact ih _ _ h

theorem sqrtFuel_mono (fuel fuel' : Nat) (m start end_ v : Int) (hle : fuel ≤ fuel')
    (h : sqrtFuel fuel m start end_ = some v) : sqrtFuel fuel' m start end_ = some v := by
  induction hle with
  | refl => exact h
  | step _ ih => exact sqrtFuel_succ _ _ _ _ _ ih

/-- The recursion of `sqrt` terminates: the budget `end - start + 1` is enough. -/
theorem sqrtFuel_total (fuel : Nat) (m start end_ : Int)
    (hf : (end_ - start).toNat + 1 ≤ fuel) : ∃ v, sqrtFuel fuel m start end_ = some v := by
  induction fuel generalizing start end_ with
  | zero => omega
  | succ n ih =>
    rw [sqrtFuel_step]
    have hb := tdiv_two_bounds (start + end_)
    split_ifs <;> first | exact ⟨_, rfl⟩ | exact ih _ _ (by omega)

theorem sqrtFuel_sqrt (m start end_ : Int) :
    sqrtFuel ((end_ - start).toNat + 1) m start end_ = some (sqrt m start end_) := by
  obtain ⟨v, hv⟩ := sqrtFuel_total _ m start end_ (le_refl _)
  simp [sqrt, hv]

theorem sqrtFuel_eq_sqrt (fuel : Nat) (m start end_ : Int)
    (hf : (end_ - start).toNat + 1 ≤ fuel) :
    sqrtFuel fuel m start end_ = some (sqrt m start end_) :=
  sqrtFuel_mono _ _ _ _ _ _ hf (sqrtFuel_sqrt m start end_)

/-- The function `sqrt` satisfies the defining equation of the source (lines 30-46). -/
theorem sqrt_eq (m start end_ : Int) :
    sqrt m start end_ =
      if start > end_ then -1
      else if start = end_ then (if start * start = m then start else -1)
      else if (start + end_).tdiv 2 * (start + end_).tdiv 2 = m then (start + end_).tdiv 2
      else if (start + end_).tdiv 2 * (start + end_).tdiv 2 > m then
        sqrt m start ((start + end_).tdiv 2 - 1)
      else sqrt m ((start + end_).tdiv 2 + 1) end_ := by
  have h := sqrtFuel_sqrt m start end_
  rw [sqrtFuel_step] at h
  have hb := tdiv_two_bounds (start + end_)
  split_ifs at h ⊢ with h1 h2 h3 h4 h5
  · exact (Option.some.inj h).symm
  · exact (Option.some.inj h).symm
  · exact (Option.some.inj h).symm
  · exact (Option.some.inj h).symm
  · rw [sqrtFuel_eq_sqrt _ _ _ _ (by omega)] at h
    exact (Option.some.inj h).symm
  · rw [sqrtFuel_eq_sqrt _ _ _ _ (by omega)] at h
    exact (Option.some.inj h).symm

/-- Binary search on `[start, end]` with `0 ≤ start`: the result is a root of `m` in the range,
or `-1` when the range holds no root. -/
theorem sqrt_range (n : Nat) (m start end_ : Int) (h0 : 0 ≤ start)
    (hn : (end_ - start).toNat + 1 ≤ n) :
    (start ≤ sqrt m start end_ ∧ sqrt m start end_ ≤ end_ ∧
        sqrt m start end_ * sqrt m start end_ = m) ∨
      (sqrt m start end_ = -1 ∧ ∀ k, start ≤ k → k ≤ end_ → k * k ≠ m) := by
  induction n generalizing start end_ with
  | zero => omega
  | succ n ih =>
    rw [sqrt_eq]
    have hb := tdiv_two_bounds (start + end_)
    split_ifs with h1 h2 h3 h4 h5
    · right; exact ⟨rfl, fun k hk1 hk2 => by omega⟩
    · left; subst h2; exact ⟨le_refl _, le_refl _, h3⟩
    · right
      refine ⟨rfl, fun k hk1 hk2 => ?_⟩
      have : k = start := by omega
      subst this; exact h3
    · left; exact ⟨by omega, by omega, h4⟩
    · rcases ih start ((start + end_).tdiv 2 - 1) h0 (by omega) with ⟨a, b, c⟩ | ⟨a, b⟩
      · left; exact ⟨a, by omega, c⟩
      · right
        refine ⟨a, fun k hk1 hk2 => ?_⟩
        by_cases hk : k ≤ (start + end_).tdiv 2 - 1
        · exact b k hk1 hk
        · have hmid : (start + end_).tdiv 2 ≤ k := by omega
          have : (start + end_).tdiv 2 * (start + end_).tdiv 2 ≤ k * k :=
            mul_le_mul hmid hmid (by omega) (by omega)
          omega
    · rcases ih ((start + end_).tdiv 2 + 1) end_ (by omega) (by omega) with ⟨a, b, c⟩ | ⟨a, b⟩
      · left; exact ⟨by omega, b, c⟩
      · right
        refine ⟨a, fun k hk1 hk2 => ?_⟩
        by_cases hk : (start + end_).tdiv 2 + 1 ≤ k
        · exact b k hk hk2
        · have hmid : k ≤ (start + end_).tdiv 2 := by omega
          have : k * k ≤ (start + end_).tdiv 2 * (start + end_).tdiv 2 :=
            mul_le_mul hmid hmid (by omega) (by omega)
          omega

/-- Any root `k ≥ 0` of `m` lies in the search range `[0, m]`. -/
theorem root_le_self (k m : Int) (hk : 0 ≤ k) (h : k * k = m) : k ≤ m := by
  rcases eq_or_lt_of_le hk with h0 | h0
  · subst h0; omega
  · nlinarith

/-- Result of `sqrt(m, 0, m)`. -/
theorem sqrt_zero_self (m : Int) :
    (0 ≤ sqrt m 0 m ∧ sqrt m 0 m * sqrt m 0 m = m) ∨
      (sqrt m 0 m = -1 ∧ ∀ k : Int, k * k ≠ m) := by
  rcases sqrt_range _ m 0 m (le_refl _) (le_refl _) with ⟨a, _, c⟩ | ⟨a, b⟩
  · left; exact ⟨a, c⟩
  · right
    refine ⟨a, fun k hk => ?_⟩
    rcases le_total 0 k with h | h
    · exact b k h (root_le_self k m h hk) hk
    · exact b (-k) (by omega) (root_le_self (-k) m (by omega) (by rw [← hk]; ring))
        (by rw [← hk]; ring)

/-- The call `sqrt(c, 0, 1)` made by `checkC` recognises `c = 1` only. -/
theorem sqrt_zero_one (c : Int) (hc : c ≠ 0) : sqrt c 0 1 = if c = 1 then 1 else -1 := by
  have e : (1 : Int).tdiv 2 = 0 := by decide
  have h1 : sqrt c 1 1 = if c = 1 then 1 else -1 := by
    rw [sqrt_eq]; simp [eq_comm]
  have h2 : sqrt c 0 (-1) = -1 := by
    rw [sqrt_eq]; simp
  rw [sqrt_eq c 0 1]
  simp only [zero_add, e, mul_zero, zero_sub, h1, h2]
  split_ifs <;> omega

/-! ## Facts on `std::__gcd` -/

theorem gcdFuel_step (fuel : Nat) (m n : Int) :
    gcdFuel (fuel + 1) m n = if n ≠ 0 then gcdFuel fuel n (m.tmod n) else some m := rfl

theorem natAbs_tmod_lt (m n : Int) (hn : n ≠ 0) : (m.tmod n).natAbs < n.natAbs := by
  rw [natAbs_tmod]
  exact Nat.mod_lt _ (Int.natAbs_pos.mpr hn)

theorem gcdFuel_succ (fuel : Nat) (m n g : Int) (h : gcdFuel fuel m n = some g) :
    gcdFuel (fuel + 1) m n = some g := by
  induction fuel generalizing m n with
  | zero => simp [gcdFuel] at h
  | succ k ih =>
    rw [gcdFuel_step] at h ⊢
    split_ifs at h ⊢ <;> first | exact h | exact ih _ _ h

theorem gcdFuel_mono (fuel fuel' : Nat) (m n g : Int) (hle : fuel ≤ fuel')
    (h : gcdFuel fuel m n = some g) : gcdFuel fuel' m n = some g := by
  induction hle with
  | refl => exact h
  | step _ ih => exact gcdFuel_succ _ _ _ _ ih

/-- The loop of `std::__gcd` terminates: `|n| + 1` iterations are enough. -/
theorem gcdFuel_total (fuel : Nat) (m n : Int) (hf : n.natAbs + 1 ≤ fuel) :
    ∃ g, gcdFuel fuel m n = some g := by
  induction fuel generalizing m n with
  | zero => omega
  | succ k ih =>
    rw [gcdFuel_step]
    split_ifs with h
    · exact ih _ _ (by have := natAbs_tmod_lt m n h; omega)
    · exact ⟨_, rfl⟩

theorem gcdFuel_gcd (m n : Int) : gcdFuel (n.natAbs + 1) m n = some (__gcd m n) := by
  obtain ⟨g, hg⟩ := gcdFuel_total _ m n (le_refl _)
  simp [__gcd, hg]

/-- The function `__gcd` satisfies the loop equation of the library source. -/
theorem gcd_eq (m n : Int) : __gcd m n = if n ≠ 0 then __gcd n (m.tmod n) else m := by
  have h := gcdFuel_gcd m n
  rw [gcdFuel_step] at h
  split_ifs at h ⊢ with h1
  · have h2 := gcdFuel_mono ((m.tmod n).natAbs + 1) n.natAbs _ _ _
      (by have := natAbs_tmod_lt m n h1; omega) (gcdFuel_gcd n (m.tmod n))
    rw [h2] at h
    exact (Option.some.inj h).symm
  · exact (Option.some.inj h).symm

theorem gcd_zero_right (m : Int) : __gcd m 0 = m := by
  rw [gcd_eq]; simp

/-- Up to sign, `std::__gcd` is the greatest common divisor. -/
theorem natAbs_gcd (m n : Int) : (__gcd m n).natAbs = Int.gcd m n := by
  generalize h : n.natAbs = k
  induction k using Nat.strong_induction_on generalizing m n with
  | _ k ih =>
    rw [gcd_eq]
    split_ifs with h1
    · rw [ih _ (by rw [← h]; exact natAbs_tmod_lt m n h1) n (m.tmod n) rfl]
      simp only [Int.gcd, natAbs_tmod]
      rw [Nat.gcd_comm, ← Nat.gcd_rec, Nat.gcd_comm]
    · have : n = 0 := by simpa using h1
      subst this; simp

/-- Scaling both arguments of `std::__gcd` by `k` scales the result by `k`, sign included. -/
theorem gcd_mul_mul (k m n : Int) : __gcd (k * m) (k * n) = k * __gcd m n := by
  generalize h : n.natAbs = j
  induction j using Nat.strong_induction_on generalizing m n with
  | _ j ih =>
    by_cases hk : k = 0
    · subst hk; simp [gcd_zero_right]
    rw [gcd_eq (k * m), gcd_eq m n]
    by_cases h1 : n = 0
    · subst h1; simp
    · have : k * n ≠ 0 := mul_ne_zero hk h1
      rw [if_pos this, if_pos h1, tmod_mul_mul]
      exact ih _ (by rw [← h]; exact natAbs_tmod_lt m n h1) n (m.tmod n) rfl

theorem gcd_dvd_left (m n : Int) : __gcd m n ∣ m := by
  rw [← Int.natAbs_dvd, natAbs_gcd]; exact Int.gcd_dvd_left

theorem gcd_dvd_right (m n : Int) : __gcd m n ∣ n := by
  rw [← Int.natAbs_dvd, natAbs_gcd]; exact Int.gcd_dvd_right

theorem gcd_ne_zero_right (m n : Int) (hn : n ≠ 0) : __gcd m n ≠ 0 := by
  intro h
  have := gcd_dvd_right m n
  rw [h] at this
  exact hn (zero_dvd_iff.mp this)

theorem gcd_tdiv_tdiv (m n : Int) (hn : n ≠ 0) :
    __gcd (m.tdiv (__gcd m n)) (n.tdiv (__gcd m n)) = 1 := by
  have hg := gcd_ne_zero_right m n hn
  have h := gcd_mul_mul (__gcd m n) (m.tdiv (__gcd m n)) (n.tdiv (__gcd m n))
  rw [Int.mul_tdiv_cancel' (gcd_dvd_left m n), Int.mul_tdiv_cancel' (gcd_dvd_right m n)] at h
  have h' : __gcd m n * 1 = __gcd m n * __gcd (m.tdiv (__gcd m n)) (n.tdiv (__gcd m n)) := by
    rw [mul_one]; exact h
  exact (mul_left_cancel₀ hg h').symm

theorem gcd3_dvd (a b d : Int) :
    __gcd (__gcd a b) d ∣ a ∧ __gcd (__gcd a b) d ∣ b ∧ __gcd (__gcd a b) d ∣ d :=
  ⟨(gcd_dvd_left _ _).trans (gcd_dvd_left _ _), (gcd_dvd_left _ _).trans (gcd_dvd_right _ _),
    gcd_dvd_right _ _⟩

theorem gcd3_tdiv (a b d : Int) (hd : d ≠ 0) :
    __gcd (__gcd (a.tdiv (__gcd (__gcd a b) d)) (b.tdiv (__gcd (__gcd a b) d)))
      (d.tdiv (__gcd (__gcd a b) d)) = 1 := by
  have hg := gcd_ne_zero_right (__gcd a b) d hd
  obtain ⟨ha, hb, hd'⟩ := gcd3_dvd a b d
  have h1 := gcd_mul_mul (__gcd (__gcd a b) d) (a.tdiv (__gcd (__gcd a b) d))
    (b.tdiv (__gcd (__gcd a b) d))
  rw [Int.mul_tdiv_cancel' ha, Int.mul_tdiv_cancel' hb] at h1
  have h2 := gcd_mul_mul (__gcd (__gcd a b) d)
    (__gcd (a.tdiv (__gcd (__gcd a b) d)) (b.tdiv (__gcd (__gcd a b) d)))
    (d.tdiv (__gcd (__gcd a b) d))
  rw [← h1, Int.mul_tdiv_cancel' hd'] at h2
  have h' : __gcd (__gcd a b) d * 1 = __gcd (__gcd a b) d *
      __gcd (__gcd (a.tdiv (__gcd (__gcd a b) d)) (b.tdiv (__gcd (__gcd a b) d)))
        (d.tdiv (__gcd (__gcd a b) d)) := by
    rw [mul_one]; exact h2
  exact (mul_left_cancel₀ hg h').symm

theorem tdiv_ne_zero_of_dvd (d g : Int) (hd : d ≠ 0) (h : g ∣ d) : d.tdiv g ≠ 0 := by
  intro h0
  have := Int.mul_tdiv_cancel' h
  rw [h0, mul_zero] at this
  exact hd this.symm

/-! ## Facts on the constructors -/

/-- The method `checkC` folds the radicand exactly when `c = 1`. -/
theorem checkC_eq (x : splnum) :
    checkC x = if x.c = 1 then
        { a := (x.a + x.b).tdiv (__gcd (x.a + x.b) x.d), b := 0, c := 0,
          d := x.d.tdiv (__gcd (x.a + x.b) x.d) }
      else x := by
  unfold checkC
  by_cases h0 : x.c = 0
  · simp [h0]
  · rw [if_pos h0]
    simp only [sqrt_zero_one x.c h0]
    by_cases h1 : x.c = 1
    · simp [h1]
    · simp [h1]

theorem reduce4_eq (a b c d : Int) :
    reduce4 a b c d =
      checkC
        { a := a.tdiv (__gcd (__gcd a b) d)
          b := b.tdiv (__gcd (__gcd a b) d)
          c := c
          d := d.tdiv (__gcd (__gcd a b) d) } := rfl

theorem checkC_of_ne_one (x : splnum) (h : x.c ≠ 1) : checkC x = x := by
  rw [checkC_eq, if_neg h]

theorem checkC_of_one (x : splnum) (h : x.c = 1) :
    checkC x =
      { a := (x.a + x.b).tdiv (__gcd (x.a + x.b) x.d)
        b := 0
        c := 0
        d := x.d.tdiv (__gcd (x.a + x.b) x.d) } := by
  rw [checkC_eq, if_pos h]

theorem reduce4_of_ne_one (a b c d : Int) (h : c ≠ 1) :
    reduce4 a b c d =
      { a := a.tdiv (__gcd (__gcd a b) d)
        b := b.tdiv (__gcd (__gcd a b) d)
        c := c
        d := d.tdiv (__gcd (__gcd a b) d) } := by
  rw [reduce4_eq, checkC_of_ne_one _ h]

/-- The value stored by lines 74-79, for a nonzero `d`. -/
theorem reduce4_spec (a b c d : Int) (hd : d ≠ 0) :
    (reduce4 a b c d).d ≠ 0 ∧ (reduce4 a b c d).c ≠ 1 ∧
    __gcd (__gcd (reduce4 a b c d).a (reduce4 a b c d).b) (reduce4 a b c d).d = 1 ∧
    ((c ≠ 1 ∧ (reduce4 a b c d).c = c ∧ (reduce4 a b c d).a * d = a * (reduce4 a b c d).d ∧
        (reduce4 a b c d).b * d = b * (reduce4 a b c d).d) ∨
      (c = 1 ∧ (reduce4 a b c d).c = 0 ∧ (reduce4 a b c d).b = 0 ∧
        (reduce4 a b c d).a * d = (a + b) * (reduce4 a b c d).d)) := by
  obtain ⟨ha, hb, hd'⟩ := gcd3_dvd a b d
  have hd1 := tdiv_ne_zero_of_dvd d _ hd hd'
  by_cases hc : c = 1
  · rw [reduce4_eq, checkC_of_one _ hc]
    have hg2 := gcd_dvd_right (a.tdiv (__gcd (__gcd a b) d) + b.tdiv (__gcd (__gcd a b) d))
      (d.tdiv (__gcd (__gcd a b) d))
    have hg1 := gcd_dvd_left (a.tdiv (__gcd (__gcd a b) d) + b.tdiv (__gcd (__gcd a b) d))
      (d.tdiv (__gcd (__gcd a b) d))
    refine ⟨tdiv_ne_zero_of_dvd _ _ hd1 hg2, ?_, ?_, Or.inr ⟨hc, rfl, rfl, ?_⟩⟩
    · show (0 : Int) ≠ 1
      decide
    · show __gcd (__gcd _ 0) _ = 1
      rw [gcd_zero_right]; exact gcd_tdiv_tdiv _ _ hd1
    · have e1 := Int.mul_tdiv_cancel' hg1
      have e2 := Int.mul_tdiv_cancel' hg2
      have e3 := Int.mul_tdiv_cancel' ha
      have e4 := Int.mul_tdiv_cancel' hb
      have e5 := Int.mul_tdiv_cancel' hd'
      show (a.tdiv (__gcd (__gcd a b) d) + b.tdiv (__gcd (__gcd a b) d)).tdiv _ * d
        = (a + b) * (d.tdiv (__gcd (__gcd a b) d)).tdiv _
      generalize __gcd (__gcd a b) d = g at *
      generalize a.tdiv g = a' at *
      generalize b.tdiv g = b' at *
      generalize d.tdiv g = d' at *
      generalize __gcd (a' + b') d' = g2 at *
      generalize (a' + b').tdiv g2 = A at *
      generalize d'.tdiv g2 = D at *
      subst e3 e4 e5
      rw [← e2]
      linear_combination (g * D) * e1
  · rw [reduce4_of_ne_one _ _ _ _ hc]
    refine ⟨hd1, hc, gcd3_tdiv a b d hd, Or.inl ⟨hc, rfl, ?_, ?_⟩⟩
    · have e3 := Int.mul_tdiv_cancel' ha
      have e5 := Int.mul_tdiv_cancel' hd'
      show a.tdiv _ * d = a * d.tdiv _
      generalize __gcd (__gcd a b) d = g at *
      generalize a.tdiv g = a' at *
      generalize d.tdiv g = d' at *
      subst e3 e5; ring
    · have e4 := Int.mul_tdiv_cancel' hb
      have e5 := Int.mul_tdiv_cancel' hd'
      show b.tdiv _ * d = b * d.tdiv _
      generalize __gcd (__gcd a b) d = g at *
      generalize b.tdiv g = b' at *
      generalize d.tdiv g = d' at *
      subst e4 e5; ring

theorem splnum4_ok (a b c d : Int) (hd : d ≠ 0) :
    splnum4 a b c d = .ok (if d < 0 then reduce4 (-a) (-b) c (-d) else reduce4 a b c d) := by
  unfold splnum4
  rw [if_neg hd]
  split_ifs <;> rfl

/-- The value built by the four-argument constructor, for a nonzero `d`. -/
theorem splnum4_spec (a b c d : Int) (hd : d ≠ 0) :
    ∃ x, splnum4 a b c d = .ok x ∧ x.d ≠ 0 ∧ x.c ≠ 1 ∧ __gcd (__gcd x.a x.b) x.d = 1 ∧
      ((c ≠ 1 ∧ x.c = c ∧ x.a * d = a * x.d ∧ x.b * d = b * x.d) ∨
        (c = 1 ∧ x.c = 0 ∧ x.b = 0 ∧ x.a * d = (a + b) * x.d)) := by
  rw [splnum4_ok a b c d hd]
  by_cases h : d < 0
  · rw [if_pos h]
    obtain ⟨h1, h2, h3, h4⟩ := reduce4_spec (-a) (-b) c (-d) (by omega)
    refine ⟨_, rfl, h1, h2, h3, ?_⟩
    rcases h4 with ⟨e1, e2, e3, e4⟩ | ⟨e1, e2, e3, e4⟩
    · exact Or.inl ⟨e1, e2, by linear_combination -e3, by linear_combination -e4⟩
    · exact Or.inr ⟨e1, e2, e3, by linear_combination -e4⟩
  · rw [if_neg h]
    obtain ⟨h1, h2, h3, h4⟩ := reduce4_spec a b c d hd
    exact ⟨_, rfl, h1, h2, h3, h4⟩

/-- A value in normal form is rebuilt unchanged by the four-argument constructor. -/
theorem splnum4_fixed (x : splnum) (hd : x.d ≠ 0) (hc : x.c ≠ 1)
    (hg : __gcd (__gcd x.a x.b) x.d = 1) : splnum4 x.a x.b x.c x.d = .ok x := by
  rw [splnum4_ok _ _ _ _ hd]
  by_cases h : x.d < 0
  · rw [if_pos h, reduce4_of_ne_one _ _ _ _ hc]
    have e : __gcd (__gcd (-x.a) (-x.b)) (-x.d) = -1 := by
      have h1 := gcd_mul_mul (-1) x.a x.b
      have h2 := gcd_mul_mul (-1) (__gcd x.a x.b) x.d
      simp only [neg_mul, one_mul] at h1 h2
      rw [h1, h2, hg]
    rw [e]
    simp [Int.tdiv_neg]
  · rw [if_neg h, reduce4_of_ne_one _ _ _ _ hc, hg]
    simp

theorem natAbs_gcd3 (a b d : Int) :
    (__gcd (__gcd a b) d).natAbs = Nat.gcd (Nat.gcd a.natAbs b.natAbs) d.natAbs := by
  rw [natAbs_gcd, Int.gcd, natAbs_gcd, Int.gcd]

/-! ## Facts on the formal numbers -/

namespace QSurd

variable {D : Int}

@[simp] theorem zero_re : (0 : QSurd D).re = 0 := rfl

@[simp] theorem zero_im : (0 : QSurd D).im = 0 := rfl

@[simp] theorem one_re : (1 : QSurd D).re = 1 := rfl

@[simp] theorem one_im : (1 : QSurd D).im = 0 := rfl

@[simp] theorem add_re (x y : QSurd D) : (x + y).re = x.re + y.re := rfl

@[simp] theorem add_im (x y : QSurd D) : (x + y).im = x.im + y.im := rfl

@[simp] theorem neg_re (x : QSurd D) : (-x).re = -x.re := rfl

@[simp] theorem neg_im (x : QSurd D) : (-x).im = -x.im := rfl

@[simp] theorem mul_re (x y : QSurd D) : (x * y).re = x.re * y.re + D * x.im * y.im := rfl

@[simp] theorem mul_im (x y : QSurd D) : (x * y).im = x.re * y.im + x.im * y.re := rfl

@[simp] theorem sub_re (x y : QSurd D) : (x - y).re = x.re - y.re := by
  rw [sub_eq_add_neg, add_re, neg_re, sub_eq_add_neg]

@[simp] theorem sub_im (x y : QSurd D) : (x - y).im = x.im - y.im := by
  rw [sub_eq_add_neg, add_im, neg_im, sub_eq_add_neg]

@[simp] theorem ofRat_re (p : ℚ) : (ofRat p : QSurd D).re = p := rfl

@[simp] theorem ofRat_im (p : ℚ) : (ofRat p : QSurd D).im = 0 := rfl

theorem ofRat_one : (ofRat 1 : QSurd D) = 1 := rfl

theorem ofRat_zero : (ofRat 0 : QSurd D) = 0 := rfl

theorem ofRat_add (p q : ℚ) : (ofRat (p + q) : QSurd D) = ofRat p + ofRat q := by
  ext <;> simp

theorem ofRat_mul (p q : ℚ) : (ofRat (p * q) : QSurd D) = ofRat p * ofRat q := by
  ext <;> simp

theorem ofRat_neg (p : ℚ) : (ofRat (-p) : QSurd D) = -ofRat p := by
  ext <;> simp

theorem ofRat_sub (p q : ℚ) : (ofRat (p - q) : QSurd D) = ofRat p - ofRat q := by
  ext <;> simp

/-- A formal number of nonzero norm has an inverse. -/
theorem exists_inverse (z : QSurd D) (h : norm z ≠ 0) : ∃ w : QSurd D, w * z = 1 := by
  refine ⟨⟨z.re / norm z, -z.im / norm z⟩, ?_⟩
  ext
  · simp only [mul_re, one_re]
    field_simp
    simp only [norm]; ring
  · simp only [mul_im, one_im]
    field_simp
    ring

end QSurd

/-! ## The operators of `splnum` compute in the formal numbers -/

theorem bind_ok {α β : Type} (e : Except Error α) (a : α) (f : α → Except Error β)
    (h : e = .ok a) : (e >>= f) = f a := by
  subst h; rfl

theorem cross_div (a a' d d' : Int) (hd : d ≠ 0) (hd' : d' ≠ 0) (h : a' * d = a * d') :
    (a' : ℚ) / d' = (a : ℚ) / d := by
  have h1 : (d : ℚ) ≠ 0 := by exact_mod_cast hd
  have h2 : (d' : ℚ) ≠ 0 := by exact_mod_cast hd'
  rw [div_eq_div_iff h2 h1]
  exact_mod_cast h

/-- The four-argument constructor keeps the value, when the radicand is `0` or `D ≠ 1`. -/
theorem splnum4_value (D a b c d : Int) (hD : D ≠ 1) (hd : d ≠ 0) (hc : c = 0 ∨ c = D)
    (hb : c = 0 → b = 0) :
    ∃ x, splnum4 a b c d = .ok x ∧ Good D x ∧ x.c = c ∧
      value D x = ⟨(a : ℚ) / d, (b : ℚ) / d⟩ := by
  obtain ⟨x, h1, h2, _, _, h5⟩ := splnum4_spec a b c d hd
  have hc1 : c ≠ 1 := by
    rcases hc with h | h
    · rw [h]; decide
    · rw [h]; exact hD
  rcases h5 with ⟨_, e2, e3, e4⟩ | ⟨e1, _⟩
  · refine ⟨x, h1, ⟨h2, by rw [e2]; exact hc, fun h0 => ?_⟩, e2, ?_⟩
    · have hb0 := hb (e2.symm.trans h0)
      rw [hb0, zero_mul] at e4
      rcases mul_eq_zero.mp e4 with h | h
      · exact h
      · exact absurd h hd
    · unfold value
      rw [cross_div a x.a d x.d hd h2 e3, cross_div b x.b d x.d hd h2 e4]
  · exact absurd e1 hc1

theorem value_splnum1 (D k : Int) : value D (splnum1 k) = QSurd.ofRat k := by
  unfold value splnum1
  ext <;> simp

theorem good_splnum1 (D k : Int) : Good D (splnum1 k) := by
  unfold Good splnum1
  simp

theorem neg_value (D : Int) (hD : D ≠ 1) (x : splnum) (hx : Good D x) :
    ∃ z, neg x = .ok z ∧ Good D z ∧ value D z = -value D x := by
  obtain ⟨hd, hc, hb⟩ := hx
  obtain ⟨z, h1, h2, _, h4⟩ := splnum4_value D (-x.a) (-x.b) x.c x.d hD hd hc
    (fun h => by rw [hb h]; rfl)
  refine ⟨z, h1, h2, ?_⟩
  rw [h4]
  unfold value
  ext <;> simp [neg_div]

theorem add_value (D : Int) (hD : D ≠ 1) (x y : splnum) (hx : Good D x) (hy : Good D y) :
    ∃ z, add x y = .ok z ∧ Good D z ∧ value D z = value D x + value D y := by
  obtain ⟨hxd, hxc, hxb⟩ := hx
  obtain ⟨hyd, hyc, hyb⟩ := hy
  have hxd' : (x.d : ℚ) ≠ 0 := by exact_mod_cast hxd
  have hyd' : (y.d : ℚ) ≠ 0 := by exact_mod_cast hyd
  unfold add
  by_cases h1 : x.c = 0 ∨ x.b = 0
  · rw [if_pos h1]
    have hb0 : x.b = 0 := h1.elim hxb id
    obtain ⟨z, e1, e2, _, e4⟩ := splnum4_value D (x.a * y.d + y.a * x.d) (x.d * y.b) y.c
      (x.d * y.d) hD (mul_ne_zero hxd hyd) hyc (fun h => by rw [hyb h, mul_zero])
    refine ⟨z, e1, e2, ?_⟩
    rw [e4]
    unfold value
    ext
    · simp only [QSurd.add_re]; push_cast; field_simp
    · simp only [QSurd.add_im, hb0]; push_cast; field_simp; ring
  · rw [if_neg h1]
    push_neg at h1
    by_cases h2 : y.c = 0 ∨ y.b = 0
    · rw [if_pos h2]
      have hb0 : y.b = 0 := h2.elim hyb id
      obtain ⟨z, e1, e2, _, e4⟩ := splnum4_value D (y.a * x.d + x.a * y.d) (y.d * x.b) x.c
        (y.d * x.d) hD (mul_ne_zero hyd hxd) hxc (fun h => absurd h h1.1)
      refine ⟨z, e1, e2, ?_⟩
      rw [e4]
      unfold value
      ext
      · simp only [QSurd.add_re]; push_cast; field_simp; ring
      · simp only [QSurd.add_im, hb0]; push_cast; field_simp; ring
    · rw [if_neg h2]
      push_neg at h2
      have hxD : x.c = D := hxc.resolve_left h1.1
      have hyD : y.c = D := hyc.resolve_left h2.1
      rw [if_pos (hxD.trans hyD.symm)]
      obtain ⟨z, e1, e2, _, e4⟩ := splnum4_value D (x.a * y.d + y.a * x.d)
        (x.b * y.d + y.b * x.d) x.c (x.d * y.d) hD (mul_ne_zero hxd hyd) hxc
        (fun h => absurd h h1.1)
      refine ⟨z, e1, e2, ?_⟩
      rw [e4]
      unfold value
      ext
      · simp only [QSurd.add_re]; push_cast; field_simp
      · simp only [QSurd.add_im]; push_cast; field_simp

theorem sub_value (D : Int) (hD : D ≠ 1) (x y : splnum) (hx : Good D x) (hy : Good D y) :
    ∃ z, sub x y = .ok z ∧ Good D z ∧ value D z = value D x - value D y := by
  obtain ⟨n, h1, h2, h3⟩ := neg_value D hD y hy
  obtain ⟨z, e1, e2, e3⟩ := add_value D hD x n hx h2
  refine ⟨z, ?_, e2, ?_⟩
  · unfold sub
    rw [bind_ok _ _ _ h1]
    exact e1
  · rw [e3, h3, sub_eq_add_neg]

theorem mul_value (D : Int) (hD : D ≠ 1) (x y : splnum) (hx : Good D x) (hy : Good D y) :
    ∃ z, mul x y = .ok z ∧ Good D z ∧ value D z = value D x * value D y := by
  obtain ⟨hxd, hxc, hxb⟩ := hx
  obtain ⟨hyd, hyc, hyb⟩ := hy
  have hxd' : (x.d : ℚ) ≠ 0 := by exact_mod_cast hxd
  have hyd' : (y.d : ℚ) ≠ 0 := by exact_mod_cast hyd
  unfold mul
  by_cases h1 : x.c = 0 ∨ x.b = 0
  · rw [if_pos h1]
    have hb0 : x.b = 0 := h1.elim hxb id
    obtain ⟨z, e1, e2, _, e4⟩ := splnum4_value D (x.a * y.a) (x.a * y.b) y.c
      (x.d * y.d) hD (mul_ne_zero hxd hyd) hyc (fun h => by rw [hyb h, mul_zero])
    refine ⟨z, e1, e2, ?_⟩
    rw [e4]
    unfold value
    ext
    · simp only [QSurd.mul_re, hb0]; push_cast; field_simp
    · simp only [QSurd.mul_im, hb0]; push_cast; field_simp
  · rw [if_neg h1]
    push_neg at h1
    by_cases h2 : y.c = 0 ∨ y.b = 0
    · rw [if_pos h2]
      have hb0 : y.b = 0 := h2.elim hyb id
      obtain ⟨z, e1, e2, _, e4⟩ := splnum4_value D (y.a * x.a) (y.a * x.b) x.c
        (y.d * x.d) hD (mul_ne_zero hyd hxd) hxc (fun h => absurd h h1.1)
      refine ⟨z, e1, e2, ?_⟩
      rw [e4]
      unfold value
      ext
      · simp only [QSurd.mul_re, hb0]; push_cast; field_simp; ring
      · simp only [QSurd.mul_im, hb0]; push_cast; field_simp; ring
    · rw [if_neg h2]
      push_neg at h2
      have hxD : x.c = D := hxc.resolve_left h1.1
      have hyD : y.c = D := hyc.resolve_left h2.1
      rw [if_pos (hxD.trans hyD.symm)]
      obtain ⟨z, e1, e2, _, e4⟩ := splnum4_value D (x.a * y.a + x.b * y.b * x.c)
        (x.a * y.b + y.a * x.b) x.c (x.d * y.d) hD (mul_ne_zero hxd hyd) hxc
        (fun h => absurd h h1.1)
      refine ⟨z, e1, e2, ?_⟩
      rw [e4, hxD]
      unfold value
      ext
      · simp only [QSurd.mul_re]; push_cast; field_simp; ring
      · simp only [QSurd.mul_im]; push_cast; field_simp; ring

theorem inverse_value (D : Int) (hD : D ≠ 1) (x : splnum) (hx : Good D x)
    (hn : QSurd.norm (value D x) ≠ 0) :
    ∃ z, inverse x = .ok z ∧ Good D z ∧ value D z * value D x = 1 := by
  obtain ⟨hxd, hxc, hxb⟩ := hx
  have hxd' : (x.d : ℚ) ≠ 0 := by exact_mod_cast hxd
  have key : ((x.a * x.a - x.b * x.b * x.c : Int) : ℚ) =
      QSurd.norm (value D x) * (x.d * x.d) := by
    unfold QSurd.norm value
    push_cast
    rcases hxc with h | h
    · rw [hxb h, h]; field_simp
    · rw [h]; field_simp; ring
  have hden : (x.a * x.a - x.b * x.b * x.c : Int) ≠ 0 := by
    intro h0
    rw [h0] at key
    have : QSurd.norm (value D x) * ((x.d : ℚ) * x.d) ≠ 0 :=
      mul_ne_zero hn (mul_ne_zero hxd' hxd')
    exact this (by rw [← key]; simp)
  have hden' : ((x.a * x.a - x.b * x.b * x.c : Int) : ℚ) ≠ 0 := by exact_mod_cast hden
  obtain ⟨z, e1, e2, _, e4⟩ := splnum4_value D (x.d * x.a) (-x.d * x.b) x.c
    (x.a * x.a - x.b * x.b * x.c) hD hden hxc (fun h => by rw [hxb h, mul_zero])
  refine ⟨z, e1, e2, ?_⟩
  rw [e4]
  have hxc' : (x.b : ℚ) * x.c = x.b * D := by
    rcases hxc with h | h
    · rw [hxb h]; simp
    · rw [h]
  have hN : (x.a : ℚ) * x.a - x.b * x.b * x.c ≠ 0 := by
    have := hden'
    push_cast at this
    exact this
  ext
  · simp only [QSurd.mul_re, QSurd.one_re, value]
    push_cast
    field_simp
    linear_combination ((x.d : ℚ) * x.b) * hxc'
  · simp only [QSurd.mul_im, QSurd.one_im, value]
    push_cast
    field_simp
    ring

theorem div_value (D : Int) (hD : D ≠ 1) (x y : splnum) (hx : Good D x) (hy : Good D y)
    (hn : QSurd.norm (value D y) ≠ 0) :
    ∃ z, div x y = .ok z ∧ Good D z ∧ value D z * value D y = value D x := by
  obtain ⟨w, h1, h2, h3⟩ := inverse_value D hD y hy hn
  obtain ⟨z, e1, e2, e3⟩ := mul_value D hD x w hx h2
  refine ⟨z, ?_, e2, ?_⟩
  · unfold div
    rw [bind_ok _ _ _ h1]
    exact e1
  · rw [e3, mul_assoc, h3, mul_one]

theorem pow_value (D : Int) (hD : D ≠ 1) (x : splnum) (hx : Good D x) (n : Nat) :
    ∃ z, splnum.pow x n = .ok z ∧ Good D z ∧ value D z = value D x ^ n := by
  induction n with
  | zero =>
    refine ⟨splnum1 1, rfl, good_splnum1 D 1, ?_⟩
    rw [value_splnum1, pow_zero]
    rfl
  | succ n ih =>
    obtain ⟨w, h1, h2, h3⟩ := ih
    obtain ⟨z, e1, e2, e3⟩ := mul_value D hD w x h2 hx
    refine ⟨z, ?_, e2, ?_⟩
    · show (splnum.pow x n >>= fun t => mul t x) = _
      rw [bind_ok _ _ _ h1]
      exact e1
    · rw [e3, h3, pow_succ]

/-- A value that denotes the rational integer `k` represents `k`. -/
theorem represents_of_value (D : Int) (x : splnum) (k : Int) (hx : Good D x)
    (h : value D x = QSurd.ofRat k) : represents x k := by
  obtain ⟨hd, _, _⟩ := hx
  have hd' : (x.d : ℚ) ≠ 0 := by exact_mod_cast hd
  have h1 := congrArg QSurd.re h
  have h2 := congrArg QSurd.im h
  simp only [value, QSurd.ofRat_re, QSurd.ofRat_im] at h1 h2
  constructor
  · rw [div_eq_iff hd'] at h1
    exact_mod_cast h1
  · left
    rw [div_eq_iff hd', zero_mul] at h2
    exact_mod_cast h2

/-! ## Facts on `findroots` -/

/-- The two branches of `findroots`: conjugate surds over a discriminant that is not a square,
or two rationals `(r ± k) / 2` with `k * k` the discriminant. -/
theorem findroots_cases (r s : Int) :
    ((∀ k : Int, k * k ≠ r * r + 4 * s) ∧ ∃ x0 x1, findroots r s = .ok (x0, x1) ∧
        Good (r * r + 4 * s) x0 ∧ Good (r * r + 4 * s) x1 ∧
        x0.c = r * r + 4 * s ∧ x1.c = r * r + 4 * s ∧
        value (r * r + 4 * s) x0 = ⟨(r : ℚ) / 2, 1 / 2⟩ ∧
        value (r * r + 4 * s) x1 = ⟨(r : ℚ) / 2, -1 / 2⟩) ∨
    (∃ k : Int, 0 ≤ k ∧ k * k = r * r + 4 * s ∧ ∃ x0 x1, findroots r s = .ok (x0, x1) ∧
        Good 0 x0 ∧ Good 0 x1 ∧ x0.c = 0 ∧ x1.c = 0 ∧
        value 0 x0 = QSurd.ofRat (((r + k : Int) : ℚ) / 2) ∧
        value 0 x1 = QSurd.ofRat (((r - k : Int) : ℚ) / 2)) := by
  have unfold_eq : findroots r s =
      if sqrt (r * r + 4 * s) 0 (r * r + 4 * s) = -1 then
        (splnum4 r 1 (r * r + 4 * s) 2 >>= fun x0 =>
          splnum4 r (-1) (r * r + 4 * s) 2 >>= fun x1 => pure (x0, x1))
      else
        (splnum4 (r + sqrt (r * r + 4 * s) 0 (r * r + 4 * s)) 0 0 2 >>= fun x0 =>
          splnum4 (r - sqrt (r * r + 4 * s) 0 (r * r + 4 * s)) 0 0 2 >>= fun x1 =>
            pure (x0, x1)) := rfl
  rcases sqrt_zero_self (r * r + 4 * s) with ⟨h1, h2⟩ | ⟨h1, h2⟩
  · right
    refine ⟨_, h1, h2, ?_⟩
    obtain ⟨x0, e1, e2, e3, e4⟩ := splnum4_value 0
      (r + sqrt (r * r + 4 * s) 0 (r * r + 4 * s)) 0 0 2 (by decide) (by decide)
      (Or.inl rfl) (fun _ => rfl)
    obtain ⟨x1, f1, f2, f3, f4⟩ := splnum4_value 0
      (r - sqrt (r * r + 4 * s) 0 (r * r + 4 * s)) 0 0 2 (by decide) (by decide)
      (Or.inl rfl) (fun _ => rfl)
    refine ⟨x0, x1, ?_, e2, f2, e3, f3, ?_, ?_⟩
    · rw [unfold_eq, if_neg (by omega), bind_ok _ _ _ e1, bind_ok _ _ _ f1]
      rfl
    · rw [e4]; ext <;> simp
    · rw [f4]; ext <;> simp
  · left
    refine ⟨h2, ?_⟩
    have hD1 : r * r + 4 * s ≠ 1 := fun h => h2 1 (by rw [h]; rfl)
    have hD0 : r * r + 4 * s ≠ 0 := fun h => h2 0 (by rw [h]; rfl)
    obtain ⟨x0, e1, e2, e3, e4⟩ := splnum4_value (r * r + 4 * s) r 1 (r * r + 4 * s) 2 hD1
      (by decide) (Or.inr rfl) (fun h => absurd h hD0)
    obtain ⟨x1, f1, f2, f3, f4⟩ := splnum4_value (r * r + 4 * s) r (-1) (r * r + 4 * s) 2 hD1
      (by decide) (Or.inr rfl) (fun h => absurd h hD0)
    refine ⟨x0, x1, ?_, e2, f2, e3, f3, ?_, ?_⟩
    · rw [unfold_eq, if_pos h1, bind_ok _ _ _ e1, bind_ok _ _ _ f1]
      rfl
    · rw [e4]; ext <;> simp
    · rw [f4]; ext <;> simp

theorem eq_one_iff (x : splnum) :
    eq x (splnum1 1) = true ↔ x.c = 0 ∧ x.a = x.d ∧ x.b = 0 := by
  simp [eq, splnum1, and_assoc]

theorem ne_eq_not (x y : splnum) : ne x y = !(eq x y) := rfl

theorem eq_iff_of_rational (x y : splnum) (hx : Good 0 x) (hy : Good 0 y) (hxc : x.c = 0)
    (hyc : y.c = 0) : eq x y = true ↔ (value 0 x).re = (value 0 y).re := by
  obtain ⟨hxd, _, hxb⟩ := hx
  obtain ⟨hyd, _, hyb⟩ := hy
  have hxd' : (x.d : ℚ) ≠ 0 := by exact_mod_cast hxd
  have hyd' : (y.d : ℚ) ≠ 0 := by exact_mod_cast hyd
  simp only [eq, hxc, hyc, hxb hxc, hyb hyc, value, Bool.and_eq_true, decide_eq_true_eq]
  rw [div_eq_div_iff hxd' hyd']
  constructor
  · rintro ⟨⟨_, h⟩, _⟩
    have : ((x.a * y.d : Int) : ℚ) = ((x.d * y.a : Int) : ℚ) := by rw [h]
    push_cast at this
    linear_combination this
  · intro h
    refine ⟨⟨trivial, ?_⟩, by simp⟩
    have : ((x.a * y.d : Int) : ℚ) = ((x.d * y.a : Int) : ℚ) := by
      push_cast; linear_combination h
    exact_mod_cast this

/-- In the branch of rational roots, a root is `==` to `splnum(1)` exactly when its numerator
`r ± k` is `2`. -/
theorem eq_one_of_rational (x : splnum) (m : Int) (hx : Good 0 x) (hc : x.c = 0)
    (hv : value 0 x = QSurd.ofRat ((m : ℚ) / 2)) : eq x (splnum1 1) = true ↔ m = 2 := by
  rw [eq_iff_of_rational x (splnum1 1) hx (good_splnum1 0 1) hc rfl, hv, value_splnum1]
  simp only [QSurd.ofRat_re]
  constructor
  · intro h
    have : (m : ℚ) = 2 := by
      have := h
      push_cast at this
      linarith
    exact_mod_cast this
  · intro h
    rw [h]; norm_num

/-- Everything the solvers use about the roots returned by `findroots`. -/
theorem findroots_value (r s : Int) :
    ∃ D x0 x1, D ≠ 1 ∧ findroots r s = .ok (x0, x1) ∧ Good D x0 ∧ Good D x1 ∧
      value D x0 + value D x1 = QSurd.ofRat r ∧
      value D x0 * value D x1 = QSurd.ofRat (-s) ∧
      (ne x0 x1 = true → QSurd.norm (value D x1 - value D x0) ≠ 0 ∧
        QSurd.norm (value D x0 - value D x1) ≠ 0) ∧
      (s ≠ 0 → QSurd.norm (value D x0) ≠ 0) ∧
      ((ne x0 (splnum1 1) && ne x1 (splnum1 1)) = true → 1 - r - s ≠ 0) ∧
      ((eq x0 (splnum1 1) && eq x1 (splnum1 1)) = true → r = 2 ∧ s = -1) ∧
      (¬ (ne x0 (splnum1 1) && ne x1 (splnum1 1)) = true →
        ¬ (eq x0 (splnum1 1) && eq x1 (splnum1 1)) = true → r + s = 1 ∧ r + 2 * s ≠ 0) := by
  rcases findroots_cases r s with ⟨hns, x0, x1, h1, g0, g1, c0, c1, v0, v1⟩ |
    ⟨k, hk0, hk, x0, x1, h1, g0, g1, c0, c1, v0, v1⟩
  · have hD1 : r * r + 4 * s ≠ 1 := fun h => hns 1 (by rw [h]; rfl)
    have hD0 : r * r + 4 * s ≠ 0 := fun h => hns 0 (by rw [h]; rfl)
    have hD0' : ((r * r + 4 * s : Int) : ℚ) ≠ 0 := by exact_mod_cast hD0
    have n0 : eq x0 (splnum1 1) = false := by
      rw [Bool.eq_false_iff, Ne, eq_one_iff]
      exact fun h => hD0 (c0.symm.trans h.1)
    have n1 : eq x1 (splnum1 1) = false := by
      rw [Bool.eq_false_iff, Ne, eq_one_iff]
      exact fun h => hD0 (c1.symm.trans h.1)
    refine ⟨r * r + 4 * s, x0, x1, hD1, h1, g0, g1, ?_, ?_, ?_, ?_, ?_, ?_, ?_⟩
    · rw [v0, v1]; ext <;> simp
      ring
    · rw [v0, v1]; ext <;> simp <;> ring
    · intro _
      rw [v0, v1]
      simp only [QSurd.norm, QSurd.sub_re, QSurd.sub_im]
      constructor
      · intro h; apply hD0'; linear_combination -h
      · intro h; apply hD0'; linear_combination -h
    · intro hs
      rw [v0]
      simp only [QSurd.norm]
      intro h
      have : (s : ℚ) = 0 := by push_cast at h; linear_combination -h
      exact hs (by exact_mod_cast this)
    · intro _ h
      apply hns (r - 2)
      have : s = 1 - r := by omega
      rw [this]; ring
    · rw [n0]; simp
    · rw [ne_eq_not, ne_eq_not, n0, n1]; simp
  · have e0 := eq_one_of_rational x0 (r + k) g0 c0 v0
    have e1 := eq_one_of_rational x1 (r - k) g1 c1 v1
    have hfac : (2 - r - k) * (2 - r + k) = 4 * (1 - r - s) := by
      linear_combination -hk
    refine ⟨0, x0, x1, by decide, h1, g0, g1, ?_, ?_, ?_, ?_, ?_, ?_, ?_⟩
    · rw [v0, v1]; ext <;> simp; ring
    · rw [v0, v1]; ext <;> simp
      have : ((k * k : Int) : ℚ) = ((r * r + 4 * s : Int) : ℚ) := by rw [hk]
      push_cast at this
      linear_combination -this / 4
    · intro hne
      have hre : (value 0 x0).re ≠ (value 0 x1).re := by
        rw [ne_eq_not] at hne
        intro h
        rw [(eq_iff_of_rational x0 x1 g0 g1 c0 c1).mpr h] at hne
        exact absurd hne (by decide)
      simp only [QSurd.norm, QSurd.sub_re, QSurd.sub_im]
      constructor
      · intro h
        have h' : ((value 0 x1).re - (value 0 x0).re) * ((value 0 x1).re - (value 0 x0).re) = 0 := by
          push_cast at h; linear_combination h
        rcases mul_self_eq_zero.mp h' with h3
        exact hre (by linarith)
      · intro h
        have h' : ((value 0 x0).re - (value 0 x1).re) * ((value 0 x0).re - (value 0 x1).re) = 0 := by
          push_cast at h; linear_combination h
        rcases mul_self_eq_zero.mp h' with h3
        exact hre (by linarith)
    · intro hs
      rw [v0]
      simp only [QSurd.norm, QSurd.ofRat_re, QSurd.ofRat_im]
      intro h
      have h' : (((r + k : Int) : ℚ) / 2) * (((r + k : Int) : ℚ) / 2) = 0 := by
        linear_combination h
      have h3 : ((r + k : Int) : ℚ) = 0 := by
        have := mul_self_eq_zero.mp h'
        linarith
      have h4 : r + k = 0 := by exact_mod_cast h3
      have h5 : 4 * s = 0 := by
        have : k = -r := by omega
        rw [this] at hk
        linear_combination -hk
      omega
    · intro h hz
      simp only [Bool.and_eq_true, ne_eq_not, Bool.not_eq_true', ← Bool.not_eq_true, e0, e1] at h
      have : (2 - r - k) * (2 - r + k) = 0 := by rw [hfac, hz, mul_zero]
      rcases mul_eq_zero.mp this with h3 | h3
      · exact h.1 (by omega)
      · exact h.2 (by omega)
    · intro h
      simp only [Bool.and_eq_true, e0, e1] at h
      have hk2 : k = 0 := by omega
      have hr : r = 2 := by omega
      refine ⟨hr, ?_⟩
      rw [hk2, hr] at hk
      omega
    · intro h h'
      simp only [Bool.and_eq_true, ne_eq_not, Bool.not_eq_true', ← Bool.not_eq_true, e0, e1,
        not_and_or, not_not] at h h'
      have hprod : (2 - r - k) * (2 - r + k) = 0 := by
        rcases h with h | h
        · rw [show 2 - r - k = 0 by omega, zero_mul]
        · rw [show 2 - r + k = 0 by omega, mul_zero]
      have hrs : r + s = 1 := by
        rw [hfac] at hprod
        omega
      refine ⟨hrs, fun h2 => ?_⟩
      have hr : r = 2 := by omega
      rcases h with h | h
      · rcases h' with h' | h'
        · exact h' h
        · exact h' (by omega)
      · rcases h' with h' | h'
        · exact h' (by omega)
        · exact h' h

/-! ## Facts on the homogeneous part -/

/-- Lines 263-272: the coefficients solve the two equations of the initial terms. -/
theorem homogeneousPart_value (D : Int) (hD : D ≠ 1) (x0 x1 a0 a1 : splnum)
    (g0 : Good D x0) (g1 : Good D x1) (ga0 : Good D a0) (ga1 : Good D a1)
    (hne : ne x0 x1 = true → QSurd.norm (value D x1 - value D x0) ≠ 0 ∧
      QSurd.norm (value D x0 - value D x1) ≠ 0)
    (hrep : QSurd.norm (value D x0) ≠ 0) :
    ∃ h, homogeneousPart x0 x1 a0 a1 = .ok h ∧
      Solves D h x0 x1 (value D a0) (value D a1) := by
  have unfold_eq : homogeneousPart x0 x1 a0 a1 =
      if ne x0 x1 = true then
        ((mul x1 a0 >>= fun t1 => sub t1 a1 >>= fun t2 => sub x1 x0 >>= fun t3 => div t2 t3)
          >>= fun u =>
        (mul x0 a0 >>= fun t1 => sub t1 a1 >>= fun t2 => sub x0 x1 >>= fun t3 => div t2 t3)
          >>= fun v => pure (.distinct u v x0 x1))
      else
        ((div a1 x0 >>= fun q => sub q a0) >>= fun v => pure (.repeated a0 v x0)) := rfl
  rw [unfold_eq]
  by_cases hc : ne x0 x1 = true
  · rw [if_pos hc]
    obtain ⟨n1, n2⟩ := hne hc
    obtain ⟨t1, e1, gt1, v1⟩ := mul_value D hD x1 a0 g1 ga0
    obtain ⟨t2, e2, gt2, v2⟩ := sub_value D hD t1 a1 gt1 ga1
    obtain ⟨t3, e3, gt3, v3⟩ := sub_value D hD x1 x0 g1 g0
    obtain ⟨u, e4, gu, vu⟩ := div_value D hD t2 t3 gt2 gt3 (by rw [v3]; exact n1)
    obtain ⟨s1, f1, gs1, w1⟩ := mul_value D hD x0 a0 g0 ga0
    obtain ⟨s2, f2, gs2, w2⟩ := sub_value D hD s1 a1 gs1 ga1
    obtain ⟨s3, f3, gs3, w3⟩ := sub_value D hD x0 x1 g0 g1
    obtain ⟨v, f4, gv, vv⟩ := div_value D hD s2 s3 gs2 gs3 (by rw [w3]; exact n2)
    obtain ⟨w, hw⟩ := QSurd.exists_inverse _ n1
    rw [v3, v2, v1] at vu
    rw [w3, w2, w1] at vv
    refine ⟨.distinct u v x0 x1, ?_, Or.inl ⟨u, v, rfl, gu, gv, ?_, ?_⟩⟩
    · rw [bind_ok _ u _ (by rw [bind_ok _ _ _ e1, bind_ok _ _ _ e2, bind_ok _ _ _ e3]; exact e4),
        bind_ok _ v _ (by rw [bind_ok _ _ _ f1, bind_ok _ _ _ f2, bind_ok _ _ _ f3]; exact f4)]
      rfl
    · linear_combination w * vu - w * vv - (value D u + value D v - value D a0) * hw
    · linear_combination (w * value D x0) * vu - (w * value D x1) * vv -
        (value D u * value D x0 + value D v * value D x1 - value D a1) * hw
  · rw [if_neg hc]
    obtain ⟨q, e1, gq, vq⟩ := div_value D hD a1 x0 ga1 g0 hrep
    obtain ⟨v, e2, gv, vv⟩ := sub_value D hD q a0 gq ga0
    refine ⟨.repeated a0 v x0, ?_, Or.inr ⟨a0, v, rfl, ga0, gv, rfl, ?_⟩⟩
    · rw [bind_ok _ v _ (by rw [bind_ok _ _ _ e1]; exact e2)]
      rfl
    · rw [vv]
      linear_combination vq

/-- The two initial terms of a homogeneous solution whose coefficients solve the equations of
the initial terms. -/
theorem initial_value (D : Int) (hD : D ≠ 1) (h : Homogeneous) (x0 x1 : splnum) (A0 A1 : QSurd D)
    (g0 : Good D x0) (g1 : Good D x1) (hh : Solves D h x0 x1 A0 A1) :
    ∃ y0 y1, h.initial0 = .ok y0 ∧ h.initial1 = .ok y1 ∧ Good D y0 ∧ Good D y1 ∧
      value D y0 = A0 ∧ value D y1 = A1 := by
  rcases hh with ⟨u, v, rfl, gu, gv, h0, h1⟩ | ⟨u, v, rfl, gu, gv, h0, h1⟩
  · obtain ⟨y0, e0, gy0, vy0⟩ := add_value D hD u v gu gv
    obtain ⟨p, e1, gp, vp⟩ := mul_value D hD u x0 gu g0
    obtain ⟨q, e2, gq, vq⟩ := mul_value D hD v x1 gv g1
    obtain ⟨y1, e3, gy1, vy1⟩ := add_value D hD p q gp gq
    refine ⟨y0, y1, e0, ?_, gy0, gy1, by rw [vy0, h0], by rw [vy1, vp, vq, h1]⟩
    show (mul u x0 >>= fun p => mul v x1 >>= fun q => add p q) = _
    rw [bind_ok _ _ _ e1, bind_ok _ _ _ e2]
    exact e3
  · obtain ⟨p, e1, gp, vp⟩ := add_value D hD u v gu gv
    obtain ⟨y1, e2, gy1, vy1⟩ := mul_value D hD p x0 gp g0
    refine ⟨u, y1, rfl, ?_, gu, gy1, h0, by rw [vy1, vp, h1]⟩
    show (add u v >>= fun p => mul p x0) = _
    rw [bind_ok _ _ _ e1]
    exact e2

theorem zero_of_value (D : Int) (x : splnum) (hx : Good D x) (h : value D x = 0) :
    x.a = 0 ∧ x.b = 0 := by
  obtain ⟨hd, _, _⟩ := hx
  have hd' : (x.d : ℚ) ≠ 0 := by exact_mod_cast hd
  have h1 := congrArg QSurd.re h
  have h2 := congrArg QSurd.im h
  simp only [value, QSurd.zero_re, QSurd.zero_im, div_eq_zero_iff, hd', or_false] at h1 h2
  exact ⟨by exact_mod_cast h1, by exact_mod_cast h2⟩

theorem characteristic_value (D : Int) (hD : D ≠ 1) (r s : Int) (x : splnum) (hx : Good D x) :
    ∃ y, characteristic r s x = .ok y ∧ Good D y ∧
      value D y = value D x * value D x - QSurd.ofRat r * value D x - QSurd.ofRat s := by
  obtain ⟨p, e1, gp, vp⟩ := mul_value D hD x x hx hx
  obtain ⟨q, e2, gq, vq⟩ := mul_value D hD (splnum1 r) x (good_splnum1 D r) hx
  obtain ⟨t, e3, gt, vt⟩ := sub_value D hD p q gp gq
  obtain ⟨y, e4, gy, vy⟩ := sub_value D hD t (splnum1 s) gt (good_splnum1 D s)
  refine ⟨y, ?_, gy, by rw [vy, vt, vp, vq, value_splnum1, value_splnum1]⟩
  show (mul x x >>= fun p => mul (splnum1 r) x >>= fun q => sub p q >>= fun t =>
    sub t (splnum1 s)) = _
  rw [bind_ok _ _ _ e1, bind_ok _ _ _ e2, bind_ok _ _ _ e3]
  exact e4

/-! ## Facts on the nonhomogeneous solver -/

/-- The two-argument constructor builds the rational `a / d`. -/
theorem splnum2_value (D a d : Int) (hd : d ≠ 0) :
    ∃ x, splnum2 a d = .ok x ∧ Good D x ∧ value D x = QSurd.ofRat ((a : ℚ) / d) ∧
      x.toRat = (a : ℚ) / d := by
  have key : ∀ a d : Int, d ≠ 0 → (reduce2 a d).d ≠ 0 ∧ (reduce2 a d).c = 0 ∧
      (reduce2 a d).b = 0 ∧ (reduce2 a d).a * d = a * (reduce2 a d).d := by
    intro a d hd
    have h1 := Int.mul_tdiv_cancel' (gcd_dvd_left a d)
    have h2 := Int.mul_tdiv_cancel' (gcd_dvd_right a d)
    have h3 := tdiv_ne_zero_of_dvd d _ hd (gcd_dvd_right a d)
    unfold reduce2
    simp only []
    generalize __gcd a d = g at *
    generalize a.tdiv g = a' at *
    generalize d.tdiv g = d' at *
    subst h1 h2
    split_ifs
    · exact ⟨by simpa using h3, rfl, rfl, by show -a' * (g * d') = g * a' * -d'; ring⟩
    · exact ⟨h3, rfl, rfl, by show a' * (g * d') = g * a' * d'; ring⟩
  have fin : ∀ x : splnum, x.d ≠ 0 → x.c = 0 → x.b = 0 → x.a * d = a * x.d →
      Good D x ∧ value D x = QSurd.ofRat ((a : ℚ) / d) ∧ x.toRat = (a : ℚ) / d := by
    intro x h1 h2 h3 h4
    refine ⟨⟨h1, Or.inl h2, fun _ => h3⟩, ?_, cross_div a x.a d x.d hd h1 h4⟩
    unfold value
    rw [cross_div a x.a d x.d hd h1 h4, h3]
    ext <;> simp
  unfold splnum2
  rw [if_neg hd]
  by_cases h : d < 0
  · rw [if_pos h]
    obtain ⟨k1, k2, k3, k4⟩ := key (-a) (-d) (by omega)
    exact ⟨_, rfl, fin _ k1 k2 k3 (by linear_combination -k4)⟩
  · rw [if_neg h]
    obtain ⟨k1, k2, k3, k4⟩ := key a d hd
    exact ⟨_, rfl, fin _ k1 k2 k3 k4⟩

/-- The homogeneous term at `n = 0` and at `n = 1`. -/
theorem homogeneous_term_value (D : Int) (hD : D ≠ 1) (h : Homogeneous) (x0 x1 : splnum)
    (A0 A1 : QSurd D) (g0 : Good D x0) (g1 : Good D x1) (hh : Solves D h x0 x1 A0 A1) :
    ∃ y0 y1, h.term 0 = .ok y0 ∧ h.term 1 = .ok y1 ∧ Good D y0 ∧ Good D y1 ∧
      value D y0 = A0 ∧ value D y1 = A1 := by
  have gen : ∀ n : Nat,
      (∀ u v, h = .distinct u v x0 x1 → Good D u → Good D v → ∃ y, h.term n = .ok y ∧
        Good D y ∧ value D y = value D u * value D x0 ^ n + value D v * value D x1 ^ n) ∧
      (∀ u v, h = .repeated u v x0 → Good D u → Good D v → ∃ y, h.term n = .ok y ∧
        Good D y ∧
        value D y = (value D v * QSurd.ofRat (n : Int) + value D u) * value D x0 ^ n) := by
    intro n
    constructor
    · rintro u v rfl gu gv
      obtain ⟨p0, e1, gp0, vp0⟩ := pow_value D hD x0 g0 n
      obtain ⟨m0, e2, gm0, vm0⟩ := mul_value D hD u p0 gu gp0
      obtain ⟨p1, e3, gp1, vp1⟩ := pow_value D hD x1 g1 n
      obtain ⟨m1, e4, gm1, vm1⟩ := mul_value D hD v p1 gv gp1
      obtain ⟨y, e5, gy, vy⟩ := add_value D hD m0 m1 gm0 gm1
      refine ⟨y, ?_, gy, by rw [vy, vm0, vm1, vp0, vp1]⟩
      show (splnum.pow x0 n >>= fun p0 => mul u p0 >>= fun m0 => splnum.pow x1 n >>= fun p1 =>
        mul v p1 >>= fun m1 => add m0 m1) = _
      rw [bind_ok _ _ _ e1, bind_ok _ _ _ e2, bind_ok _ _ _ e3, bind_ok _ _ _ e4]
      exact e5
    · rintro u v rfl gu gv
      obtain ⟨m, e1, gm, vm⟩ := mul_value D hD v (splnum1 n) gv (good_splnum1 D n)
      obtain ⟨q, e2, gq, vq⟩ := add_value D hD m u gm gu
      obtain ⟨p, e3, gp, vp⟩ := pow_value D hD x0 g0 n
      obtain ⟨y, e4, gy, vy⟩ := mul_value D hD q p gq gp
      refine ⟨y, ?_, gy, by rw [vy, vq, vm, vp, value_splnum1]⟩
      show (mul v (splnum1 n) >>= fun m => add m u >>= fun q => splnum.pow x0 n >>= fun p =>
        mul q p) = _
      rw [bind_ok _ _ _ e1, bind_ok _ _ _ e2, bind_ok _ _ _ e3]
      exact e4
  rcases hh with ⟨u, v, hh, gu, gv, h0, h1⟩ | ⟨u, v, hh, gu, gv, h0, h1⟩
  · obtain ⟨y0, e0, gy0, vy0⟩ := (gen 0).1 u v hh gu gv
    obtain ⟨y1, e1, gy1, vy1⟩ := (gen 1).1 u v hh gu gv
    refine ⟨y0, y1, e0, e1, gy0, gy1, ?_, ?_⟩
    · rw [vy0, pow_zero, pow_zero, mul_one, mul_one, h0]
    · rw [vy1, pow_one, pow_one, h1]
  · obtain ⟨y0, e0, gy0, vy0⟩ := (gen 0).2 u v hh gu gv
    obtain ⟨y1, e1, gy1, vy1⟩ := (gen 1).2 u v hh gu gv
    refine ⟨y0, y1, e0, e1, gy0, gy1, ?_, ?_⟩
    · rw [vy0, pow_zero, mul_one, ← h0]
      have : (QSurd.ofRat ((0 : Nat) : Int) : QSurd D) = 0 := by ext <;> simp
      rw [this, mul_zero, zero_add]
    · rw [vy1, pow_one, ← h1]
      have : (QSurd.ofRat ((1 : Nat) : Int) : QSurd D) = 1 := by ext <;> simp
      rw [this, mul_one, add_comm]

/-- The three branches of `solvenonhomogeneous`, for `s ≠ 0`: which coefficient `C` is
printed, under which condition on `r` and `s`, and which equations the homogeneous coefficients
solve. -/
theorem solvenonhomogeneous_spec (r s t a0 a1 : Int) (hs : s ≠ 0) :
    ∃ D x0 x1 C h, D ≠ 1 ∧ Good D x0 ∧ Good D x1 ∧ Good D C ∧
      value D C = QSurd.ofRat C.toRat ∧
      ((solvenonhomogeneous r s t a0 a1 = .ok ⟨.constant C, h⟩ ∧ 1 - r - s ≠ 0 ∧
          C.toRat = (t : ℚ) / ((1 - r - s : Int) : ℚ) ∧
          Solves D h x0 x1 (QSurd.ofRat a0 - value D C) (QSurd.ofRat a1 - value D C)) ∨
        (solvenonhomogeneous r s t a0 a1 = .ok ⟨.nSquared C, h⟩ ∧ (r = 2 ∧ s = -1) ∧
          C.toRat = ((-t : Int) : ℚ) / ((r + 4 * s : Int) : ℚ) ∧
          Solves D h x0 x1 (QSurd.ofRat a0) (QSurd.ofRat a1 - value D C)) ∨
        (solvenonhomogeneous r s t a0 a1 = .ok ⟨.nLinear C, h⟩ ∧ (r + s = 1 ∧ r + 2 * s ≠ 0) ∧
          C.toRat = (t : ℚ) / ((r + 2 * s : Int) : ℚ) ∧
          Solves D h x0 x1 (QSurd.ofRat a0) (QSurd.ofRat a1 - value D C))) := by
  obtain ⟨D, x0, x1, hD, hf, g0, g1, _, _, hne, hn0, r1, r2, r3⟩ := findroots_value r s
  have unfold_eq : solvenonhomogeneous r s t a0 a1 =
      findroots r s >>= fun roots =>
        if (ne roots.1 (splnum1 1) && ne roots.2 (splnum1 1)) = true then
          splnum2 t (1 - r - s) >>= fun constant =>
          sub (splnum1 a0) constant >>= fun a0_ =>
          sub (splnum1 a1) constant >>= fun a1_ =>
          homogeneousPart roots.1 roots.2 a0_ a1_ >>= fun h =>
          pure { particular := .constant constant, homogeneous := h }
        else if (eq roots.1 (splnum1 1) && eq roots.2 (splnum1 1)) = true then
          splnum2 (-t) (r + 4 * s) >>= fun n_coeff =>
          sub (splnum1 a1) n_coeff >>= fun a1_ =>
          homogeneousPart roots.1 roots.2 (splnum1 a0) a1_ >>= fun h =>
          pure { particular := .nSquared n_coeff, homogeneous := h }
        else
          splnum2 t (r + 2 * s) >>= fun n2_coeff =>
          sub (splnum1 a1) n2_coeff >>= fun a1_ =>
          homogeneousPart roots.1 roots.2 (splnum1 a0) a1_ >>= fun h =>
          pure { particular := .nLinear n2_coeff, homogeneous := h } := rfl
  rw [unfold_eq, bind_ok _ _ _ hf]
  simp only []
  by_cases c1 : (ne x0 (splnum1 1) && ne x1 (splnum1 1)) = true
  · rw [if_pos c1]
    have hden := r1 c1
    obtain ⟨C, e1, gC, vC, tC⟩ := splnum2_value D t (1 - r - s) hden
    obtain ⟨b0, e2, gb0, vb0⟩ := sub_value D hD (splnum1 a0) C (good_splnum1 D a0) gC
    obtain ⟨b1, e3, gb1, vb1⟩ := sub_value D hD (splnum1 a1) C (good_splnum1 D a1) gC
    obtain ⟨h, e4, hh⟩ := homogeneousPart_value D hD x0 x1 b0 b1 g0 g1 gb0 gb1 hne (hn0 hs)
    rw [vb0, vb1, value_splnum1, value_splnum1] at hh
    refine ⟨D, x0, x1, C, h, hD, g0, g1, gC, by rw [vC, tC], Or.inl ⟨?_, hden, tC, hh⟩⟩
    rw [bind_ok _ _ _ e1, bind_ok _ _ _ e2, bind_ok _ _ _ e3, bind_ok _ _ _ e4]
    rfl
  · rw [if_neg c1]
    by_cases c2 : (eq x0 (splnum1 1) && eq x1 (splnum1 1)) = true
    · rw [if_pos c2]
      obtain ⟨hr, hs'⟩ := r2 c2
      have hden : r + 4 * s ≠ 0 := by omega
      obtain ⟨C, e1, gC, vC, tC⟩ := splnum2_value D (-t) (r + 4 * s) hden
      obtain ⟨b1, e3, gb1, vb1⟩ := sub_value D hD (splnum1 a1) C (good_splnum1 D a1) gC
      obtain ⟨h, e4, hh⟩ := homogeneousPart_value D hD x0 x1 (splnum1 a0) b1 g0 g1
        (good_splnum1 D a0) gb1 hne (hn0 hs)
      rw [vb1, value_splnum1, value_splnum1] at hh
      refine ⟨D, x0, x1, C, h, hD, g0, g1, gC, by rw [vC, tC],
        Or.inr (Or.inl ⟨?_, ⟨hr, hs'⟩, tC, hh⟩)⟩
      rw [bind_ok _ _ _ e1, bind_ok _ _ _ e3, bind_ok _ _ _ e4]
      rfl
    · rw [if_neg c2]
      obtain ⟨hrs, hden⟩ := r3 c1 c2
      obtain ⟨C, e1, gC, vC, tC⟩ := splnum2_value D t (r + 2 * s) hden
      obtain ⟨b1, e3, gb1, vb1⟩ := sub_value D hD (splnum1 a1) C (good_splnum1 D a1) gC
      obtain ⟨h, e4, hh⟩ := homogeneousPart_value D hD x0 x1 (splnum1 a0) b1 g0 g1
        (good_splnum1 D a0) gb1 hne (hn0 hs)
      rw [vb1, value_splnum1, value_splnum1] at hh
      refine ⟨D, x0, x1, C, h, hD, g0, g1, gC, by rw [vC, tC],
        Or.inr (Or.inr ⟨?_, ⟨hrs, hden⟩, tC, hh⟩)⟩
      rw [bind_ok _ _ _ e1, bind_ok _ _ _ e3, bind_ok _ _ _ e4]
      rfl

/-- The particular term at `n = 0` and at `n = 1`. -/
theorem particular_term_value (D : Int) (hD : D ≠ 1) (C : splnum) (gC : Good D C) :
    (∃ y0 y1, (Particular.constant C).term 0 = .ok y0 ∧ (Particular.constant C).term 1 = .ok y1 ∧
        Good D y0 ∧ Good D y1 ∧ value D y0 = value D C ∧ value D y1 = value D C) ∧
    (∃ y0 y1, (Particular.nSquared C).term 0 = .ok y0 ∧ (Particular.nSquared C).term 1 = .ok y1 ∧
        Good D y0 ∧ Good D y1 ∧ value D y0 = 0 ∧ value D y1 = value D C) ∧
    (∃ y0 y1, (Particular.nLinear C).term 0 = .ok y0 ∧ (Particular.nLinear C).term 1 = .ok y1 ∧
        Good D y0 ∧ Good D y1 ∧ value D y0 = 0 ∧ value D y1 = value D C) := by
  obtain ⟨z0, e0, gz0, vz0⟩ := mul_value D hD C (splnum1 0) gC (good_splnum1 D 0)
  obtain ⟨z1, e1, gz1, vz1⟩ := mul_value D hD C (splnum1 1) gC (good_splnum1 D 1)
  have h0 : value D z0 = 0 := by
    rw [vz0, value_splnum1]
    have : (QSurd.ofRat ((0 : Int) : ℚ) : QSurd D) = 0 := by ext <;> simp
    rw [this, mul_zero]
  have h1 : value D z1 = value D C := by
    rw [vz1, value_splnum1]
    have : (QSurd.ofRat ((1 : Int) : ℚ) : QSurd D) = 1 := by ext <;> simp
    rw [this, mul_one]
  exact ⟨⟨C, C, rfl, rfl, gC, gC, rfl, rfl⟩, ⟨z0, z1, e0, e1, gz0, gz1, h0, h1⟩,
    ⟨z0, z1, e0, e1, gz0, gz1, h0, h1⟩⟩

theorem nonhomogeneous_term_value (D : Int) (hD : D ≠ 1) (sol : Nonhomogeneous) (n : Nat)
    (p q : splnum) (hp : sol.particular.term n = .ok p) (hq : sol.homogeneous.term n = .ok q)
    (gp : Good D p) (gq : Good D q) :
    ∃ y, sol.term n = .ok y ∧ Good D y ∧ value D y = value D p + value D q := by
  obtain ⟨y, e, gy, vy⟩ := add_value D hD p q gp gq
  refine ⟨y, ?_, gy, vy⟩
  show (sol.particular.term n >>= fun p => sol.homogeneous.term n >>= fun q => add p q) = _
  rw [bind_ok _ _ _ hp, bind_ok _ _ _ hq]
  exact e

/-! ## Facts on constructed values and on single operators -/

/-- The four-argument constructor with `d ≠ 0` and a radicand other than `1`: the radicand is
kept and the stored fields are proportional to the given ones. -/
theorem splnum4_keep (a b c d : Int) (hd : d ≠ 0) (hc : c ≠ 1) :
    ∃ x, splnum4 a b c d = .ok x ∧ x.d ≠ 0 ∧ x.c = c ∧ x.a * d = a * x.d ∧
      x.b * d = b * x.d := by
  obtain ⟨x, h1, h2, _, _, h5⟩ := splnum4_spec a b c d hd
  rcases h5 with ⟨_, e2, e3, e4⟩ | ⟨e1, _⟩
  · exact ⟨x, h1, h2, e2, e3, e4⟩
  · exact absurd e1 hc

theorem splnum4_error_iff (a b c d : Int) (e : Error) :
    splnum4 a b c d = .error e ↔ d = 0 ∧ e = .divisionByZero := by
  by_cases hd : d = 0
  · subst hd
    constructor
    · intro h
      have h' : (Except.error Error.divisionByZero : Except Error splnum) = .error e := h
      exact ⟨rfl, (Except.error.inj h').symm⟩
    · rintro ⟨_, rfl⟩
      rfl
  · obtain ⟨x, h1, _⟩ := splnum4_spec a b c d hd
    rw [h1]
    constructor
    · intro h; exact Except.noConfusion h
    · rintro ⟨h, _⟩; exact absurd h hd

theorem splnum4_ok_ne_zero (a b c d : Int) (x : splnum) (h : splnum4 a b c d = .ok x) :
    d ≠ 0 := by
  intro hd
  subst hd
  have h' : (Except.error Error.divisionByZero : Except Error splnum) = .ok x := h
  exact Except.noConfusion h'

theorem reduce2_spec (a d : Int) (hd : d ≠ 0) :
    0 < (reduce2 a d).d ∧ (reduce2 a d).c = 0 ∧ (reduce2 a d).b = 0 ∧
      (reduce2 a d).a * d = a * (reduce2 a d).d ∧
      Nat.gcd (reduce2 a d).a.natAbs (reduce2 a d).d.natAbs = 1 := by
  have h1 := Int.mul_tdiv_cancel' (gcd_dvd_left a d)
  have h2 := Int.mul_tdiv_cancel' (gcd_dvd_right a d)
  have h3 := tdiv_ne_zero_of_dvd d _ hd (gcd_dvd_right a d)
  have h4 : Nat.gcd (a.tdiv (__gcd a d)).natAbs (d.tdiv (__gcd a d)).natAbs = 1 := by
    have := natAbs_gcd (a.tdiv (__gcd a d)) (d.tdiv (__gcd a d))
    rw [gcd_tdiv_tdiv a d hd] at this
    exact this.symm
  unfold reduce2
  simp only []
  generalize __gcd a d = g at *
  generalize a.tdiv g = a' at *
  generalize d.tdiv g = d' at *
  subst h1 h2
  split_ifs with h
  · refine ⟨by show 0 < -d'; omega, rfl, rfl, by show -a' * (g * d') = g * a' * -d'; ring, ?_⟩
    show Nat.gcd (-a').natAbs (-d').natAbs = 1
    rw [Int.natAbs_neg, Int.natAbs_neg]; exact h4
  · exact ⟨by show 0 < d'; omega, rfl, rfl, by show a' * (g * d') = g * a' * d'; ring, h4⟩

theorem splnum2_ok (a d : Int) (hd : d ≠ 0) :
    splnum2 a d = .ok (if d < 0 then reduce2 (-a) (-d) else reduce2 a d) := by
  unfold splnum2
  rw [if_neg hd]
  split_ifs <;> rfl

theorem splnum2_ok_ne_zero (a d : Int) (x : splnum) (h : splnum2 a d = .ok x) : d ≠ 0 := by
  intro hd
  subst hd
  have h' : (Except.error Error.divisionByZero : Except Error splnum) = .ok x := h
  exact Except.noConfusion h'

/-- A constructed value has a nonzero denominator and a radicand other than `1`. -/
theorem constructed_fields (x : splnum) (hx : Constructed x) : x.d ≠ 0 ∧ x.c ≠ 1 := by
  rcases hx with ⟨a, b, c, d, h⟩ | ⟨a, d, h⟩ | ⟨a, rfl⟩
  · obtain ⟨y, h1, h2, h3, _⟩ := splnum4_spec a b c d (splnum4_ok_ne_zero a b c d x h)
    rw [h1] at h
    have := Except.ok.inj h
    subst this
    exact ⟨h2, h3⟩
  · have hd := splnum2_ok_ne_zero a d x h
    rw [splnum2_ok a d hd] at h
    have := Except.ok.inj h
    subst this
    by_cases hneg : d < 0
    · rw [if_pos hneg]
      obtain ⟨k1, k2, _⟩ := reduce2_spec (-a) (-d) (by omega)
      exact ⟨by omega, by rw [k2]; decide⟩
    · rw [if_neg hneg]
      obtain ⟨k1, k2, _⟩ := reduce2_spec a d hd
      exact ⟨by omega, by rw [k2]; decide⟩
  · exact ⟨by show (1 : Int) ≠ 0; decide, by show (0 : Int) ≠ 1; decide⟩

theorem inverse_error_iff (x : splnum) (e : Error) :
    inverse x = .error e ↔ x.a * x.a = x.b * x.b * x.c ∧ e = .divisionByZero := by
  unfold inverse
  rw [splnum4_error_iff]
  constructor
  · rintro ⟨h, he⟩; exact ⟨by omega, he⟩
  · rintro ⟨h, he⟩; exact ⟨by omega, he⟩

theorem inverse_fields (x : splnum) (hc : x.c ≠ 1)
    (hN : x.a * x.a - x.b * x.b * x.c ≠ 0) :
    ∃ y, inverse x = .ok y ∧ y.d ≠ 0 ∧ y.c = x.c ∧
      y.a * (x.a * x.a - x.b * x.b * x.c) = x.d * x.a * y.d ∧
      y.b * (x.a * x.a - x.b * x.b * x.c) = -x.d * x.b * y.d :=
  splnum4_keep _ _ _ _ hN hc

theorem neg_fields (x : splnum) (hd : x.d ≠ 0) (hc : x.c ≠ 1) :
    ∃ y, neg x = .ok y ∧ y.d ≠ 0 ∧ y.c = x.c ∧ y.a * x.d = -x.a * y.d ∧
      y.b * x.d = -x.b * y.d :=
  splnum4_keep _ _ _ _ hd hc

theorem mul_of_left (x y : splnum) (h : x.c = 0 ∨ x.b = 0) :
    mul x y = splnum4 (x.a * y.a) (x.a * y.b) y.c (x.d * y.d) := by
  unfold mul; rw [if_pos h]

theorem mul_of_right (x y : splnum) (h1 : ¬ (x.c = 0 ∨ x.b = 0)) (h2 : y.c = 0 ∨ y.b = 0) :
    mul x y = splnum4 (y.a * x.a) (y.a * x.b) x.c (y.d * x.d) := by
  unfold mul; rw [if_neg h1, if_pos h2]

theorem mul_of_surd (x y : splnum) (h1 : ¬ (x.c = 0 ∨ x.b = 0)) (h2 : ¬ (y.c = 0 ∨ y.b = 0)) :
    mul x y = if x.c = y.c then
        splnum4 (x.a * y.a + x.b * y.b * x.c) (x.a * y.b + y.a * x.b) x.c (x.d * y.d)
      else .error .differentKinds := by
  unfold mul; rw [if_neg h1, if_neg h2]

theorem add_of_left (x y : splnum) (h : x.c = 0 ∨ x.b = 0) :
    add x y = splnum4 (x.a * y.d + y.a * x.d) (x.d * y.b) y.c (x.d * y.d) := by
  unfold add; rw [if_pos h]

theorem add_of_right (x y : splnum) (h1 : ¬ (x.c = 0 ∨ x.b = 0)) (h2 : y.c = 0 ∨ y.b = 0) :
    add x y = splnum4 (y.a * x.d + x.a * y.d) (y.d * x.b) x.c (y.d * x.d) := by
  unfold add; rw [if_neg h1, if_pos h2]

theorem add_of_surd (x y : splnum) (h1 : ¬ (x.c = 0 ∨ x.b = 0)) (h2 : ¬ (y.c = 0 ∨ y.b = 0)) :
    add x y = if x.c = y.c then
        splnum4 (x.a * y.d + y.a * x.d) (x.b * y.d + y.b * x.d) x.c (x.d * y.d)
      else .error .differentKinds := by
  unfold add; rw [if_neg h1, if_neg h2]

theorem eq_zero_iff (x : splnum) :
    eq x (splnum1 0) = true ↔ x.c = 0 ∧ x.a = 0 ∧ x.b = 0 := by
  simp [eq, splnum1, and_assoc]

/-- The product of a constructed value with its inverse: the stored fields. -/
theorem mul_inverse_fields (x : splnum) (hd : x.d ≠ 0) (hc : x.c ≠ 1)
    (hN : x.a * x.a - x.b * x.b * x.c ≠ 0) :
    ∃ y z, inverse x = .ok y ∧ mul x y = .ok z ∧ z.d ≠ 0 ∧ z.c = x.c ∧ z.a = z.d ∧
      (z.b = 0 ↔ x.b = 0 ∨ x.c ≠ 0) := by
  obtain ⟨y, hy, yd, yc, e1, e2⟩ := inverse_fields x hc hN
  have hyc1 : y.c ≠ 1 := by rw [yc]; exact hc
  by_cases h1 : x.c = 0 ∨ x.b = 0
  · have hbc : x.b * x.b * x.c = 0 := by
      rcases h1 with h | h
      · rw [h, mul_zero]
      · rw [h, zero_mul, zero_mul]
    have ha : x.a ≠ 0 := by
      intro h
      apply hN
      rw [hbc, h]; rfl
    obtain ⟨z, hz, zd, zc, f1, f2⟩ := splnum4_keep (x.a * y.a) (x.a * y.b) y.c (x.d * y.d)
      (mul_ne_zero hd yd) hyc1
    have hza : z.a = z.d := by
      have : (z.a - z.d) * (x.d * y.d * (x.a * x.a - x.b * x.b * x.c)) = 0 := by
        linear_combination (x.a * x.a - x.b * x.b * x.c) * f1 + (x.a * z.d) * e1 +
          (z.d * x.d * y.d) * hbc
      rcases mul_eq_zero.mp this with h | h
      · omega
      · exact absurd h (mul_ne_zero (mul_ne_zero hd yd) hN)
    have hzb : z.b * (x.a * x.a - x.b * x.b * x.c) = -x.a * x.b * z.d := by
      have : (z.b * (x.a * x.a - x.b * x.b * x.c) + x.a * x.b * z.d) * (x.d * y.d) = 0 := by
        linear_combination (x.a * x.a - x.b * x.b * x.c) * f2 + (x.a * z.d) * e2
      rcases mul_eq_zero.mp this with h | h
      · linear_combination h
      · exact absurd h (mul_ne_zero hd yd)
    refine ⟨y, z, hy, by rw [mul_of_left x y h1]; exact hz, zd, zc.trans yc, hza, ?_⟩
    constructor
    · intro hb
      rw [hb, zero_mul] at hzb
      have : x.a * x.b * z.d = 0 := by linear_combination hzb
      rcases mul_eq_zero.mp this with h | h
      · rcases mul_eq_zero.mp h with h | h
        · exact absurd h ha
        · exact Or.inl h
      · exact absurd h zd
    · intro hb
      have hb0 : x.b = 0 := by
        rcases hb with h | h
        · exact h
        · exact h1.resolve_left h
      have : z.b * (x.a * x.a - x.b * x.b * x.c) = 0 := by
        rw [hzb, hb0]; ring
      rcases mul_eq_zero.mp this with h | h
      · exact h
      · exact absurd h hN
  · have h1' := h1
    push_neg at h1
    have hyb : y.b ≠ 0 := by
      intro h
      rw [h, zero_mul] at e2
      have : x.d * x.b * y.d = 0 := by linear_combination e2
      exact absurd this (mul_ne_zero (mul_ne_zero hd h1.2) yd)
    have h2 : ¬ (y.c = 0 ∨ y.b = 0) := by
      rw [yc]; push_neg; exact ⟨h1.1, hyb⟩
    have hm := mul_of_surd x y h1' h2
    rw [if_pos yc.symm] at hm
    obtain ⟨z, hz, zd, zc, f1, f2⟩ := splnum4_keep (x.a * y.a + x.b * y.b * x.c)
      (x.a * y.b + y.a * x.b) x.c (x.d * y.d) (mul_ne_zero hd yd) hc
    have hza : z.a = z.d := by
      have : (z.a - z.d) * (x.d * y.d * (x.a * x.a - x.b * x.b * x.c)) = 0 := by
        linear_combination (x.a * x.a - x.b * x.b * x.c) * f1 + (x.a * z.d) * e1 +
          (x.b * x.c * z.d) * e2
      rcases mul_eq_zero.mp this with h | h
      · omega
      · exact absurd h (mul_ne_zero (mul_ne_zero hd yd) hN)
    have hzb : z.b = 0 := by
      have : z.b * (x.d * y.d * (x.a * x.a - x.b * x.b * x.c)) = 0 := by
        linear_combination (x.a * x.a - x.b * x.b * x.c) * f2 + (x.a * z.d) * e2 +
          (x.b * z.d) * e1
      rcases mul_eq_zero.mp this with h | h
      · exact h
      · exact absurd h (mul_ne_zero (mul_ne_zero hd yd) hN)
    exact ⟨y, z, hy, by rw [hm]; exact hz, zd, zc, hza, ⟨fun _ => Or.inr h1.1, fun _ => hzb⟩⟩

/-- The sum of a constructed value with its opposite: the stored fields. -/
theorem add_neg_fields (x : splnum) (hd : x.d ≠ 0) (hc : x.c ≠ 1) :
    ∃ y z, neg x = .ok y ∧ add x y = .ok z ∧ z.d ≠ 0 ∧ z.c = x.c ∧ z.a = 0 ∧
      (z.b = 0 ↔ x.b = 0 ∨ x.c ≠ 0) := by
  obtain ⟨y, hy, yd, yc, e1, e2⟩ := neg_fields x hd hc
  have hyc1 : y.c ≠ 1 := by rw [yc]; exact hc
  by_cases h1 : x.c = 0 ∨ x.b = 0
  · obtain ⟨z, hz, zd, zc, f1, f2⟩ := splnum4_keep (x.a * y.d + y.a * x.d) (x.d * y.b) y.c
      (x.d * y.d) (mul_ne_zero hd yd) hyc1
    have hza : z.a = 0 := by
      have : z.a * (x.d * y.d) = 0 := by
        linear_combination f1 + z.d * e1
      rcases mul_eq_zero.mp this with h | h
      · exact h
      · exact absurd h (mul_ne_zero hd yd)
    have hzb : z.b * x.d = -x.b * z.d := by
      have : (z.b * x.d + x.b * z.d) * (x.d * y.d) = 0 := by
        linear_combination x.d * f2 + (x.d * z.d) * e2
      rcases mul_eq_zero.mp this with h | h
      · linear_combination h
      · exact absurd h (mul_ne_zero hd yd)
    refine ⟨y, z, hy, by rw [add_of_left x y h1]; exact hz, zd, zc.trans yc, hza, ?_⟩
    constructor
    · intro hb
      rw [hb, zero_mul] at hzb
      have : x.b * z.d = 0 := by linear_combination hzb
      rcases mul_eq_zero.mp this with h | h
      · exact Or.inl h
      · exact absurd h zd
    · intro hb
      have hb0 : x.b = 0 := by
        rcases hb with h | h
        · exact h
        · exact h1.resolve_left h
      have : z.b * x.d = 0 := by
        rw [hzb, hb0]; ring
      rcases mul_eq_zero.mp this with h | h
      · exact h
      · exact absurd h hd
  · have h1' := h1
    push_neg at h1
    have hyb : y.b ≠ 0 := by
      intro h
      rw [h, zero_mul] at e2
      have : x.b * y.d = 0 := by linear_combination e2
      exact absurd this (mul_ne_zero h1.2 yd)
    have h2 : ¬ (y.c = 0 ∨ y.b = 0) := by
      rw [yc]; push_neg; exact ⟨h1.1, hyb⟩
    have hm := add_of_surd x y h1' h2
    rw [if_pos yc.symm] at hm
    obtain ⟨z, hz, zd, zc, f1, f2⟩ := splnum4_keep (x.a * y.d + y.a * x.d)
      (x.b * y.d + y.b * x.d) x.c (x.d * y.d) (mul_ne_zero hd yd) hc
    have hza : z.a = 0 := by
      have : z.a * (x.d * y.d) = 0 := by
        linear_combination f1 + z.d * e1
      rcases mul_eq_zero.mp this with h | h
      · exact h
      · exact absurd h (mul_ne_zero hd yd)
    have hzb : z.b = 0 := by
      have : z.b * (x.d * y.d) = 0 := by
        linear_combination f2 + z.d * e2
      rcases mul_eq_zero.mp this with h | h
      · exact h
      · exact absurd h (mul_ne_zero hd yd)
    exact ⟨y, z, hy, by rw [hm]; exact hz, zd, zc, hza, ⟨fun _ => Or.inr h1.1, fun _ => hzb⟩⟩

theorem splnum4_exists_ok (a b c d : Int) (hd : d ≠ 0) : ∃ x, splnum4 a b c d = .ok x := by
  obtain ⟨x, h, _⟩ := splnum4_spec a b c d hd
  exact ⟨x, h⟩

/-- When `operator+` and `operator*` raise the error of different kinds, for operands with
nonzero denominators. -/
theorem kind_error_iff (x y : splnum) (hx : x.d ≠ 0) (hy : y.d ≠ 0) :
    (add x y = .error .differentKinds ↔ hasSurd x ∧ hasSurd y ∧ x.c ≠ y.c) ∧
    (mul x y = .error .differentKinds ↔ hasSurd x ∧ hasSurd y ∧ x.c ≠ y.c) ∧
    (¬ (hasSurd x ∧ hasSurd y ∧ x.c ≠ y.c) → (∃ z, add x y = .ok z) ∧ ∃ z, mul x y = .ok z) := by
  have hxy : x.d * y.d ≠ 0 := mul_ne_zero hx hy
  have hyx : y.d * x.d ≠ 0 := mul_ne_zero hy hx
  unfold hasSurd
  by_cases h1 : x.c = 0 ∨ x.b = 0
  · have hno : ¬ ((x.b ≠ 0 ∧ x.c ≠ 0) ∧ (y.b ≠ 0 ∧ y.c ≠ 0) ∧ x.c ≠ y.c) := by
      rintro ⟨⟨hb, hc⟩, _⟩
      rcases h1 with h | h
      · exact hc h
      · exact hb h
    obtain ⟨z1, e1⟩ := splnum4_exists_ok (x.a * y.d + y.a * x.d) (x.d * y.b) y.c _ hxy
    obtain ⟨z2, e2⟩ := splnum4_exists_ok (x.a * y.a) (x.a * y.b) y.c _ hxy
    rw [add_of_left x y h1, mul_of_left x y h1, e1, e2]
    exact ⟨⟨fun h => Except.noConfusion h, fun h => absurd h hno⟩,
      ⟨fun h => Except.noConfusion h, fun h => absurd h hno⟩, fun _ => ⟨⟨z1, rfl⟩, ⟨z2, rfl⟩⟩⟩
  · by_cases h2 : y.c = 0 ∨ y.b = 0
    · have hno : ¬ ((x.b ≠ 0 ∧ x.c ≠ 0) ∧ (y.b ≠ 0 ∧ y.c ≠ 0) ∧ x.c ≠ y.c) := by
        rintro ⟨_, ⟨hb, hc⟩, _⟩
        rcases h2 with h | h
        · exact hc h
        · exact hb h
      obtain ⟨z1, e1⟩ := splnum4_exists_ok (y.a * x.d + x.a * y.d) (y.d * x.b) x.c _ hyx
      obtain ⟨z2, e2⟩ := splnum4_exists_ok (y.a * x.a) (y.a * x.b) x.c _ hyx
      rw [add_of_right x y h1 h2, mul_of_right x y h1 h2, e1, e2]
      exact ⟨⟨fun h => Except.noConfusion h, fun h => absurd h hno⟩,
        ⟨fun h => Except.noConfusion h, fun h => absurd h hno⟩, fun _ => ⟨⟨z1, rfl⟩, ⟨z2, rfl⟩⟩⟩
    · rw [add_of_surd x y h1 h2, mul_of_surd x y h1 h2]
      have hsx : x.b ≠ 0 ∧ x.c ≠ 0 := by
        push_neg at h1; exact ⟨h1.2, h1.1⟩
      have hsy : y.b ≠ 0 ∧ y.c ≠ 0 := by
        push_neg at h2; exact ⟨h2.2, h2.1⟩
      by_cases h3 : x.c = y.c
      · have hno : ¬ ((x.b ≠ 0 ∧ x.c ≠ 0) ∧ (y.b ≠ 0 ∧ y.c ≠ 0) ∧ x.c ≠ y.c) :=
          fun h => h.2.2 h3
        obtain ⟨z1, e1⟩ := splnum4_exists_ok (x.a * y.d + y.a * x.d) (x.b * y.d + y.b * x.d)
          x.c _ hxy
        obtain ⟨z2, e2⟩ := splnum4_exists_ok (x.a * y.a + x.b * y.b * x.c)
          (x.a * y.b + y.a * x.b) x.c _ hxy
        rw [if_pos h3, if_pos h3, e1, e2]
        exact ⟨⟨fun h => Except.noConfusion h, fun h => absurd h hno⟩,
          ⟨fun h => Except.noConfusion h, fun h => absurd h hno⟩,
          fun _ => ⟨⟨z1, rfl⟩, ⟨z2, rfl⟩⟩⟩
      · rw [if_neg h3, if_neg h3]
        exact ⟨⟨fun _ => ⟨hsx, hsy, h3⟩, fun _ => rfl⟩, ⟨fun _ => ⟨hsx, hsy, h3⟩, fun _ => rfl⟩,
          fun h => absurd ⟨hsx, hsy, h3⟩ h⟩

/-! ## No operation of the solvers mixes two kinds -/

theorem bind_error {α β : Type} (e : Except Error α) (er : Error) (f : α → Except Error β)
    (h : e = .error er) : (e >>= f) = .error er := by
  subst h; rfl

theorem bind_fine (D : Int) (e : Except Error splnum) (f : splnum → Except Error splnum)
    (he : Fine D e) (hf : ∀ z, Good D z → Fine D (f z)) : Fine D (e >>= f) := by
  rcases he with ⟨z, hz, gz⟩ | h
  · rw [bind_ok _ _ _ hz]; exact hf z gz
  · rw [bind_error _ _ _ h]; exact Or.inr rfl

theorem bind_noKind {α : Type} (D : Int) (e : Except Error splnum) (f : splnum → Except Error α)
    (he : Fine D e) (hf : ∀ z, Good D z → NoKind (f z)) : NoKind (e >>= f) := by
  rcases he with ⟨z, hz, gz⟩ | h
  · rw [bind_ok _ _ _ hz]; exact hf z gz
  · rw [bind_error _ _ _ h]; exact Or.inr rfl

theorem bind_noKind_pure {α β : Type} (e : Except Error α) (f : α → β) (he : NoKind e) :
    NoKind (e >>= fun a => (pure (f a) : Except Error β)) := by
  rcases he with ⟨z, hz⟩ | h
  · rw [bind_ok _ _ _ hz]; exact Or.inl ⟨_, rfl⟩
  · rw [bind_error _ _ _ h]; exact Or.inr rfl

theorem noKind_ne {α : Type} (e : Except Error α) (h : NoKind e) :
    e ≠ .error .differentKinds := by
  rcases h with ⟨z, hz⟩ | h
  · rw [hz]; exact fun h => Except.noConfusion h
  · rw [h]; exact fun h => absurd (Except.error.inj h) (by decide)

theorem add_fine (D : Int) (hD : D ≠ 1) (x y : splnum) (hx : Good D x) (hy : Good D y) :
    Fine D (add x y) := by
  obtain ⟨z, h, g, _⟩ := add_value D hD x y hx hy
  exact Or.inl ⟨z, h, g⟩

theorem sub_fine (D : Int) (hD : D ≠ 1) (x y : splnum) (hx : Good D x) (hy : Good D y) :
    Fine D (sub x y) := by
  obtain ⟨z, h, g, _⟩ := sub_value D hD x y hx hy
  exact Or.inl ⟨z, h, g⟩

theorem mul_fine (D : Int) (hD : D ≠ 1) (x y : splnum) (hx : Good D x) (hy : Good D y) :
    Fine D (mul x y) := by
  obtain ⟨z, h, g, _⟩ := mul_value D hD x y hx hy
  exact Or.inl ⟨z, h, g⟩

theorem inverse_fine (D : Int) (hD : D ≠ 1) (x : splnum) (hx : Good D x) :
    Fine D (inverse x) := by
  obtain ⟨_, hc, hb⟩ := hx
  by_cases hN : x.a * x.a - x.b * x.b * x.c = 0
  · exact Or.inr ((inverse_error_iff x _).mpr ⟨by omega, rfl⟩)
  · obtain ⟨z, h, g, _⟩ := splnum4_value D (x.d * x.a) (-x.d * x.b) x.c
      (x.a * x.a - x.b * x.b * x.c) hD hN hc (fun h => by rw [hb h, mul_zero])
    exact Or.inl ⟨z, h, g⟩

theorem div_fine (D : Int) (hD : D ≠ 1) (x y : splnum) (hx : Good D x) (hy : Good D y) :
    Fine D (div x y) :=
  bind_fine D _ _ (inverse_fine D hD y hy) (fun z gz => mul_fine D hD x z hx gz)

theorem splnum2_fine (D a d : Int) : Fine D (splnum2 a d) := by
  by_cases hd : d = 0
  · subst hd; exact Or.inr rfl
  · obtain ⟨x, h, g, _⟩ := splnum2_value D a d hd
    exact Or.inl ⟨x, h, g⟩

/-- Lines 263-272 raise nothing but, possibly, the division-by-zero error. -/
theorem homogeneousPart_noKind (D : Int) (hD : D ≠ 1) (x0 x1 a0 a1 : splnum)
    (g0 : Good D x0) (g1 : Good D x1) (ga0 : Good D a0) (ga1 : Good D a1) :
    NoKind (homogeneousPart x0 x1 a0 a1) := by
  have unfold_eq : homogeneousPart x0 x1 a0 a1 =
      if ne x0 x1 = true then
        ((mul x1 a0 >>= fun t1 => sub t1 a1 >>= fun t2 => sub x1 x0 >>= fun t3 => div t2 t3)
          >>= fun u =>
        (mul x0 a0 >>= fun t1 => sub t1 a1 >>= fun t2 => sub x0 x1 >>= fun t3 => div t2 t3)
          >>= fun v => pure (.distinct u v x0 x1))
      else
        ((div a1 x0 >>= fun q => sub q a0) >>= fun v => pure (.repeated a0 v x0)) := rfl
  rw [unfold_eq]
  have coeff : ∀ y0 y1 : splnum, Good D y0 → Good D y1 → Fine D
      (mul y1 a0 >>= fun t1 => sub t1 a1 >>= fun t2 => sub y1 y0 >>= fun t3 => div t2 t3) :=
    fun y0 y1 h0 h1 =>
      bind_fine D _ _ (mul_fine D hD y1 a0 h1 ga0) (fun t1 gt1 =>
        bind_fine D _ _ (sub_fine D hD t1 a1 gt1 ga1) (fun t2 gt2 =>
          bind_fine D _ _ (sub_fine D hD y1 y0 h1 h0) (fun t3 gt3 =>
            div_fine D hD t2 t3 gt2 gt3)))
  split_ifs
  · exact bind_noKind D _ _ (coeff x0 x1 g0 g1) (fun u _ =>
      bind_noKind_pure _ (fun v => Homogeneous.distinct u v x0 x1)
        (Or.elim (coeff x1 x0 g1 g0) (fun ⟨z, hz, _⟩ => Or.inl ⟨z, hz⟩) Or.inr))
  · exact bind_noKind_pure _ (fun v => Homogeneous.repeated a0 v x0)
      (Or.elim (bind_fine D _ _ (div_fine D hD a1 x0 ga1 g0)
        (fun q gq => sub_fine D hD q a0 gq ga0)) (fun ⟨z, hz, _⟩ => Or.inl ⟨z, hz⟩) Or.inr)

theorem solvenonhomogeneous_unfold (r s t a0 a1 : Int) :
    solvenonhomogeneous r s t a0 a1 =
      findroots r s >>= fun roots =>
        if (ne roots.1 (splnum1 1) && ne roots.2 (splnum1 1)) = true then
          splnum2 t (1 - r - s) >>= fun constant =>
          sub (splnum1 a0) constant >>= fun a0_ =>
          sub (splnum1 a1) constant >>= fun a1_ =>
          homogeneousPart roots.1 roots.2 a0_ a1_ >>= fun h =>
          pure { particular := .constant constant, homogeneous := h }
        else if (eq roots.1 (splnum1 1) && eq roots.2 (splnum1 1)) = true then
          splnum2 (-t) (r + 4 * s) >>= fun n_coeff =>
          sub (splnum1 a1) n_coeff >>= fun a1_ =>
          homogeneousPart roots.1 roots.2 (splnum1 a0) a1_ >>= fun h =>
          pure { particular := .nSquared n_coeff, homogeneous := h }
        else
          splnum2 t (r + 2 * s) >>= fun n2_coeff =>
          sub (splnum1 a1) n2_coeff >>= fun a1_ =>
          homogeneousPart roots.1 roots.2 (splnum1 a0) a1_ >>= fun h =>
          pure { particular := .nLinear n2_coeff, homogeneous := h } := rfl

theorem solvers_noKind (r s t a0 a1 : Int) :
    NoKind (solvehomogeneous r s a0 a1) ∧ NoKind (solvenonhomogeneous r s t a0 a1) := by
  obtain ⟨D, x0, x1, hD, hf, g0, g1, _⟩ := findroots_value r s
  constructor
  · show NoKind (findroots r s >>= fun roots =>
      homogeneousPart roots.1 roots.2 (splnum1 a0) (splnum1 a1))
    rw [bind_ok _ _ _ hf]
    exact homogeneousPart_noKind D hD x0 x1 _ _ g0 g1 (good_splnum1 D a0) (good_splnum1 D a1)
  · rw [solvenonhomogeneous_unfold, bind_ok _ _ _ hf]
    simp only []
    split_ifs
    · exact bind_noKind D _ _ (splnum2_fine D t (1 - r - s)) (fun C gC =>
        bind_noKind D _ _ (sub_fine D hD _ C (good_splnum1 D a0) gC) (fun b0 gb0 =>
          bind_noKind D _ _ (sub_fine D hD _ C (good_splnum1 D a1) gC) (fun b1 gb1 =>
            bind_noKind_pure _ (fun h => Nonhomogeneous.mk (.constant C) h)
              (homogeneousPart_noKind D hD x0 x1 b0 b1 g0 g1 gb0 gb1))))
    · exact bind_noKind D _ _ (splnum2_fine D (-t) (r + 4 * s)) (fun C gC =>
        bind_noKind D _ _ (sub_fine D hD _ C (good_splnum1 D a1) gC) (fun b1 gb1 =>
          bind_noKind_pure _ (fun h => Nonhomogeneous.mk (.nSquared C) h)
            (homogeneousPart_noKind D hD x0 x1 _ b1 g0 g1 (good_splnum1 D a0) gb1)))
    · exact bind_noKind D _ _ (splnum2_fine D t (r + 2 * s)) (fun C gC =>
        bind_noKind D _ _ (sub_fine D hD _ C (good_splnum1 D a1) gC) (fun b1 gb1 =>
          bind_noKind_pure _ (fun h => Nonhomogeneous.mk (.nLinear C) h)
            (homogeneousPart_noKind D hD x0 x1 _ b1 g0 g1 (good_splnum1 D a0) gb1)))

/-! ## Which branch of `solvenonhomogeneous` is taken -/

theorem bind_eq_ok {α β : Type} (e : Except Error α) (f : α → Except Error β) (b : β)
    (h : (e >>= f) = .ok b) : ∃ a, e = .ok a ∧ f a = .ok b := by
  cases e with
  | error er => exact Except.noConfusion (show (Except.error er : Except Error β) = .ok b from h)
  | ok a => exact ⟨a, rfl, h⟩

/-- The tests of lines 298 and 303 on the roots, in terms of `r` and `s`. -/
theorem resonance_conditions (r s : Int) :
    ∃ x0 x1, findroots r s = .ok (x0, x1) ∧
      ((ne x0 (splnum1 1) && ne x1 (splnum1 1)) = true ↔ 1 - r - s ≠ 0) ∧
      (¬ (ne x0 (splnum1 1) && ne x1 (splnum1 1)) = true ∧
          (eq x0 (splnum1 1) && eq x1 (splnum1 1)) = true ↔ r = 2 ∧ s = -1) ∧
      (¬ (ne x0 (splnum1 1) && ne x1 (splnum1 1)) = true ∧
          ¬ (eq x0 (splnum1 1) && eq x1 (splnum1 1)) = true ↔ r + s = 1 ∧ s ≠ -1) := by
  obtain ⟨D, x0, x1, _, hf, _, _, _, _, _, _, r1, r2, r3⟩ := findroots_value r s
  refine ⟨x0, x1, hf, ⟨r1, fun h => ?_⟩, ⟨fun h => r2 h.2, fun h => ?_⟩,
    ⟨fun h => ?_, fun h => ?_⟩⟩
  · by_contra c1
    by_cases c2 : (eq x0 (splnum1 1) && eq x1 (splnum1 1)) = true
    · have := r2 c2; omega
    · have := r3 c1 c2; omega
  · have c1 : ¬ (ne x0 (splnum1 1) && ne x1 (splnum1 1)) = true := by
      intro c1
      have := r1 c1; omega
    refine ⟨c1, ?_⟩
    by_contra c2
    have := r3 c1 c2; omega
  · have := r3 h.1 h.2
    exact ⟨this.1, by omega⟩
  · constructor
    · intro c1
      have := r1 c1; omega
    · intro c2
      have := r2 c2; omega

/-- The tag of the printed particular solution tells which branch was taken. -/
theorem solvenonhomogeneous_tag (r s t a0 a1 : Int) (sol : Nonhomogeneous)
    (h : solvenonhomogeneous r s t a0 a1 = .ok sol) :
    ∃ x0 x1, findroots r s = .ok (x0, x1) ∧
      (((ne x0 (splnum1 1) && ne x1 (splnum1 1)) = true ∧
          ∃ C, sol.particular = .constant C) ∨
        (¬ (ne x0 (splnum1 1) && ne x1 (splnum1 1)) = true ∧
          (eq x0 (splnum1 1) && eq x1 (splnum1 1)) = true ∧
          ∃ C, sol.particular = .nSquared C) ∨
        (¬ (ne x0 (splnum1 1) && ne x1 (splnum1 1)) = true ∧
          ¬ (eq x0 (splnum1 1) && eq x1 (splnum1 1)) = true ∧
          ∃ C, sol.particular = .nLinear C)) := by
  rw [solvenonhomogeneous_unfold] at h
  obtain ⟨roots, hr, h⟩ := bind_eq_ok _ _ _ h
  refine ⟨roots.1, roots.2, hr, ?_⟩
  split_ifs at h with c1 c2
  · obtain ⟨C, _, h⟩ := bind_eq_ok _ _ _ h
    obtain ⟨b0, _, h⟩ := bind_eq_ok _ _ _ h
    obtain ⟨b1, _, h⟩ := bind_eq_ok _ _ _ h
    obtain ⟨hh, _, h⟩ := bind_eq_ok _ _ _ h
    have := Except.ok.inj h
    subst this
    exact Or.inl ⟨c1, C, rfl⟩
  · obtain ⟨C, _, h⟩ := bind_eq_ok _ _ _ h
    obtain ⟨b1, _, h⟩ := bind_eq_ok _ _ _ h
    obtain ⟨hh, _, h⟩ := bind_eq_ok _ _ _ h
    have := Except.ok.inj h
    subst this
    exact Or.inr (Or.inl ⟨c1, c2, C, rfl⟩)
  · obtain ⟨C, _, h⟩ := bind_eq_ok _ _ _ h
    obtain ⟨b1, _, h⟩ := bind_eq_ok _ _ _ h
    obtain ⟨hh, _, h⟩ := bind_eq_ok _ _ _ h
    have := Except.ok.inj h
    subst this
    exact Or.inr (Or.inr ⟨c1, c2, C, rfl⟩)

theorem print_of_zero (x : splnum) (ha : x.a = 0) (hb : x.b = 0) :
    print x = if x.d ≠ 1 then " / " ++ toString x.d else "" := by
  unfold print
  simp [ha, hb]

/-! ## The solvers without overflow

The theorems of this section are about the definitions over unbounded integers: they state
what the algorithm achieves as long as no `int` operation overflows. -/

/-- Without overflow. For `s ≠ 0`, `solvehomogeneous(r, s, a0, a1)` returns coefficients that reproduce the
initial terms: for distinct roots `u + v` represents `a0` and `u * x1 + v * x2` represents
`a1`; for a repeated root `u` represents `a0` and `(u + v) * x` represents `a1`; the sums and
products are computed with the operators of `splnum` and raise no error. -/
theorem solvehomogeneous_initial_terms (r s a0 a1 : Int) (hs : s ≠ 0) :
    ∃ h y0 y1, solvehomogeneous r s a0 a1 = .ok h ∧ h.initial0 = .ok y0 ∧
      h.initial1 = .ok y1 ∧ represents y0 a0 ∧ represents y1 a1 := by
  obtain ⟨D, x0, x1, hD, hf, g0, g1, _, _, hne, hn0, _⟩ := findroots_value r s
  obtain ⟨h, e1, hh⟩ := homogeneousPart_value D hD x0 x1 (splnum1 a0) (splnum1 a1) g0 g1
    (good_splnum1 D a0) (good_splnum1 D a1) hne (hn0 hs)
  obtain ⟨y0, y1, i0, i1, gy0, gy1, vy0, vy1⟩ := initial_value D hD h x0 x1 _ _ g0 g1 hh
  refine ⟨h, y0, y1, ?_, i0, i1, represents_of_value D y0 a0 gy0 (by rw [vy0, value_splnum1]),
    represents_of_value D y1 a1 gy1 (by rw [vy1, value_splnum1])⟩
  show (findroots r s >>= fun roots =>
    homogeneousPart roots.1 roots.2 (splnum1 a0) (splnum1 a1)) = _
  rw [bind_ok _ _ _ hf]
  exact e1

/-- Without overflow. For `s ≠ 0`, the solution printed by `solvenonhomogeneous(r, s, t, a0, a1)` matches
both initial terms: `p(0) + h(0)` represents `a0` and `p(1) + h(1)` represents `a1`, where
`p(n)` is `C`, `C * n^2` or `C * n` and `h(n)` is `u * x1^n + v * x2^n` or
`(v * n + u) * x^n`, all computed with the operators of `splnum` without error. -/
theorem solvenonhomogeneous_initial_terms (r s t a0 a1 : Int) (hs : s ≠ 0) :
    ∃ sol y0 y1, solvenonhomogeneous r s t a0 a1 = .ok sol ∧ sol.term 0 = .ok y0 ∧
      sol.term 1 = .ok y1 ∧ represents y0 a0 ∧ represents y1 a1 := by
  obtain ⟨D, x0, x1, C, h, hD, g0, g1, gC, _, hcase⟩ := solvenonhomogeneous_spec r s t a0 a1 hs
  obtain ⟨⟨c0, c1, ec0, ec1, gc0, gc1, vc0, vc1⟩, ⟨s0, s1, es0, es1, gs0, gs1, vs0, vs1⟩,
    ⟨l0, l1, el0, el1, gl0, gl1, vl0, vl1⟩⟩ := particular_term_value D hD C gC
  rcases hcase with ⟨e, _, _, hh⟩ | ⟨e, _, _, hh⟩ | ⟨e, _, _, hh⟩
  · obtain ⟨q0, q1, eq0, eq1, gq0, gq1, vq0, vq1⟩ :=
      homogeneous_term_value D hD h x0 x1 _ _ g0 g1 hh
    obtain ⟨y0, f0, gy0, vy0⟩ := nonhomogeneous_term_value D hD ⟨.constant C, h⟩ 0 c0 q0 ec0 eq0
      gc0 gq0
    obtain ⟨y1, f1, gy1, vy1⟩ := nonhomogeneous_term_value D hD ⟨.constant C, h⟩ 1 c1 q1 ec1 eq1
      gc1 gq1
    exact ⟨_, y0, y1, e, f0, f1,
      represents_of_value D y0 a0 gy0 (by rw [vy0, vc0, vq0]; ring),
      represents_of_value D y1 a1 gy1 (by rw [vy1, vc1, vq1]; ring)⟩
  · obtain ⟨q0, q1, eq0, eq1, gq0, gq1, vq0, vq1⟩ :=
      homogeneous_term_value D hD h x0 x1 _ _ g0 g1 hh
    obtain ⟨y0, f0, gy0, vy0⟩ := nonhomogeneous_term_value D hD ⟨.nSquared C, h⟩ 0 s0 q0 es0 eq0
      gs0 gq0
    obtain ⟨y1, f1, gy1, vy1⟩ := nonhomogeneous_term_value D hD ⟨.nSquared C, h⟩ 1 s1 q1 es1 eq1
      gs1 gq1
    exact ⟨_, y0, y1, e, f0, f1,
      represents_of_value D y0 a0 gy0 (by rw [vy0, vs0, vq0]; ring),
      represents_of_value D y1 a1 gy1 (by rw [vy1, vs1, vq1]; ring)⟩
  · obtain ⟨q0, q1, eq0, eq1, gq0, gq1, vq0, vq1⟩ :=
      homogeneous_term_value D hD h x0 x1 _ _ g0 g1 hh
    obtain ⟨y0, f0, gy0, vy0⟩ := nonhomogeneous_term_value D hD ⟨.nLinear C, h⟩ 0 l0 q0 el0 eq0
      gl0 gq0
    obtain ⟨y1, f1, gy1, vy1⟩ := nonhomogeneous_term_value D hD ⟨.nLinear C, h⟩ 1 l1 q1 el1 eq1
      gl1 gq1
    exact ⟨_, y0, y1, e, f0, f1,
      represents_of_value D y0 a0 gy0 (by rw [vy0, vl0, vq0]; ring),
      represents_of_value D y1 a1 gy1 (by rw [vy1, vl1, vq1]; ring)⟩

/-- Without overflow. For `s ≠ 0`, the particular term `p` printed by `solvenonhomogeneous` satisfies the
recurrence over the rationals, `p(n) = r p(n-1) + s p(n-2) + t` for every `n ≥ 2`, where
`p(n) = C` with `C = t / (1 - r - s)`, or `p(n) = C n^2` with `C = -t / (r + 4 s)`, or
`p(n) = C n` with `C = t / (r + 2 s)`, according to the branch taken. -/
theorem particular_satisfies_recurrence (r s t a0 a1 : Int) (hs : s ≠ 0) :
    ∃ sol, solvenonhomogeneous r s t a0 a1 = .ok sol ∧
      (∀ n : Nat, 2 ≤ n → sol.particular.eval n =
        r * sol.particular.eval ((n : ℚ) - 1) + s * sol.particular.eval ((n : ℚ) - 2) + t) ∧
      ((∃ C, sol.particular = .constant C ∧ C.toRat = (t : ℚ) / (1 - r - s)) ∨
        (∃ C, sol.particular = .nSquared C ∧ C.toRat = -(t : ℚ) / (r + 4 * s)) ∨
        (∃ C, sol.particular = .nLinear C ∧ C.toRat = (t : ℚ) / (r + 2 * s))) := by
  obtain ⟨D, x0, x1, C, h, _, _, _, _, _, hcase⟩ := solvenonhomogeneous_spec r s t a0 a1 hs
  rcases hcase with ⟨e, hden, hC, _⟩ | ⟨e, ⟨hr, hs'⟩, hC, _⟩ | ⟨e, ⟨hrs, hden⟩, hC, _⟩
  · have hden' : (1 : ℚ) - r - s ≠ 0 := by
      have : ((1 - r - s : Int) : ℚ) ≠ 0 := by exact_mod_cast hden
      push_cast at this
      exact this
    push_cast at hC
    refine ⟨_, e, fun n _ => ?_, Or.inl ⟨C, rfl, hC⟩⟩
    simp only [Particular.eval, hC]
    field_simp
    ring
  · push_cast at hC
    subst hr hs'
    refine ⟨_, e, fun n _ => ?_, Or.inr (Or.inl ⟨C, rfl, by rw [hC]⟩)⟩
    simp only [Particular.eval, hC]
    push_cast
    ring
  · have hden' : (r : ℚ) + 2 * s ≠ 0 := by
      have : ((r + 2 * s : Int) : ℚ) ≠ 0 := by exact_mod_cast hden
      push_cast at this
      exact this
    have hrs' : (r : ℚ) = 1 - s := by
      have : ((r + s : Int) : ℚ) = 1 := by rw [hrs]; norm_num
      push_cast at this
      linarith
    push_cast at hC
    refine ⟨_, e, fun n _ => ?_, Or.inr (Or.inr ⟨C, rfl, hC⟩)⟩
    simp only [Particular.eval, hC]
    rw [hrs'] at hden' ⊢
    field_simp
    ring

/-- Without overflow. For all integers `r`, `s`, both values returned by `findroots(r, s)` are roots of
`x^2 - r x - s`: the expression `x * x - r * x - s`, computed with the operators of `splnum`,
raises no error and has `a = 0` and `b = 0`. -/
theorem findroots_are_roots (r s : Int) :
    ∃ x0 x1 y0 y1, findroots r s = .ok (x0, x1) ∧
      characteristic r s x0 = .ok y0 ∧ characteristic r s x1 = .ok y1 ∧
      (y0.a = 0 ∧ y0.b = 0) ∧ (y1.a = 0 ∧ y1.b = 0) := by
  obtain ⟨D, x0, x1, hD, hf, g0, g1, hsum, hprod, _⟩ := findroots_value r s
  obtain ⟨y0, e0, gy0, vy0⟩ := characteristic_value D hD r s x0 g0
  obtain ⟨y1, e1, gy1, vy1⟩ := characteristic_value D hD r s x1 g1
  rw [QSurd.ofRat_neg] at hprod
  refine ⟨x0, x1, y0, y1, hf, e0, e1, zero_of_value D y0 gy0 ?_, zero_of_value D y1 gy1 ?_⟩
  · rw [vy0]
    linear_combination value D x0 * hsum - hprod
  · rw [vy1]
    linear_combination value D x1 * hsum - hprod

/-- Without overflow. For every integer `m`, the call `sqrt(m, 0, m)` terminates (any recursion budget of at
least `m + 1` levels yields the same result); for `m ≥ 0` it returns the non-negative `k` with
`k * k = m` when there is one, and `-1` when there is none; for `m < 0` it returns `-1`. -/
theorem sqrt_perfect_square (m : Int) :
    (∀ fuel, m.toNat + 1 ≤ fuel → sqrtFuel fuel m 0 m = some (sqrt m 0 m)) ∧
    (0 ≤ m → (∀ k : Int, 0 ≤ k → k * k = m → sqrt m 0 m = k) ∧
      ((¬ ∃ k : Int, 0 ≤ k ∧ k * k = m) → sqrt m 0 m = -1)) ∧
    (m < 0 → sqrt m 0 m = -1) := by
  refine ⟨fun fuel hf => sqrtFuel_eq_sqrt fuel m 0 m (by simpa using hf), fun _ => ⟨?_, ?_⟩, ?_⟩
  · intro k hk hkm
    rcases sqrt_zero_self m with ⟨h1, h2⟩ | ⟨_, h2⟩
    · have h3 : (sqrt m 0 m - k) * (sqrt m 0 m + k) = 0 := by
        linear_combination h2 - hkm
      rcases mul_eq_zero.mp h3 with h4 | h4
      · omega
      · have : k = 0 := by omega
        have : sqrt m 0 m = 0 := by omega
        omega
    · exact absurd hkm (h2 k)
  · intro hno
    rcases sqrt_zero_self m with ⟨h1, h2⟩ | ⟨h1, _⟩
    · exact absurd ⟨_, h1, h2⟩ hno
    · exact h1
  · intro hm
    rw [sqrt_eq, if_pos (by omega)]

/-- Without overflow. For all integers `r`, `s`: the test of the no-resonance branch of
`solvenonhomogeneous` succeeds exactly when `1 - r - s ≠ 0`, the double-resonance branch is
reached exactly when `r = 2` and `s = -1`, the single-resonance branch exactly when
`r + s = 1` and `s ≠ -1`; and whenever the procedure returns, the printed particular solution
is `C`, `[C] n^2` or `[C] n` under the same three conditions. -/
theorem resonance_branch (r s : Int) :
    (∃ x0 x1, findroots r s = .ok (x0, x1) ∧
      ((ne x0 (splnum1 1) && ne x1 (splnum1 1)) = true ↔ 1 - r - s ≠ 0) ∧
      (¬ (ne x0 (splnum1 1) && ne x1 (splnum1 1)) = true ∧
          (eq x0 (splnum1 1) && eq x1 (splnum1 1)) = true ↔ r = 2 ∧ s = -1) ∧
      (¬ (ne x0 (splnum1 1) && ne x1 (splnum1 1)) = true ∧
          ¬ (eq x0 (splnum1 1) && eq x1 (splnum1 1)) = true ↔ r + s = 1 ∧ s ≠ -1)) ∧
    (∀ t a0 a1 sol, solvenonhomogeneous r s t a0 a1 = .ok sol →
      ((∃ C, sol.particular = .constant C) ↔ 1 - r - s ≠ 0) ∧
      ((∃ C, sol.particular = .nSquared C) ↔ r = 2 ∧ s = -1) ∧
      ((∃ C, sol.particular = .nLinear C) ↔ r + s = 1 ∧ s ≠ -1)) := by
  refine ⟨resonance_conditions r s, fun t a0 a1 sol h => ?_⟩
  obtain ⟨x0, x1, hf, i1, i2, i3⟩ := resonance_conditions r s
  obtain ⟨y0, y1, hf', htag⟩ := solvenonhomogeneous_tag r s t a0 a1 sol h
  have hxy : (x0, x1) = (y0, y1) := Except.ok.inj (hf.symm.trans hf')
  obtain ⟨rfl, rfl⟩ := Prod.mk.inj hxy
  rcases htag with ⟨c1, C, hC⟩ | ⟨c1, c2, C, hC⟩ | ⟨c1, c2, C, hC⟩
  · have k1 := i1.mp c1
    refine ⟨⟨fun _ => k1, fun _ => ⟨C, hC⟩⟩, ⟨?_, fun k => by omega⟩, ⟨?_, fun k => by omega⟩⟩
    · rintro ⟨C', hC'⟩
      rw [hC] at hC'
      exact Particular.noConfusion hC'
    · rintro ⟨C', hC'⟩
      rw [hC] at hC'
      exact Particular.noConfusion hC'
  · have k2 := i2.mp ⟨c1, c2⟩
    refine ⟨⟨?_, fun k => by omega⟩, ⟨fun _ => k2, fun _ => ⟨C, hC⟩⟩, ⟨?_, fun k => by omega⟩⟩
    · rintro ⟨C', hC'⟩
      rw [hC] at hC'
      exact Particular.noConfusion hC'
    · rintro ⟨C', hC'⟩
      rw [hC] at hC'
      exact Particular.noConfusion hC'
  · have k3 := i3.mp ⟨c1, c2⟩
    refine ⟨⟨?_, fun k => by omega⟩, ⟨?_, fun k => by omega⟩, ⟨fun _ => k3, fun _ => ⟨C, hC⟩⟩⟩
    · rintro ⟨C', hC'⟩
      rw [hC] at hC'
      exact Particular.noConfusion hC'
    · rintro ⟨C', hC'⟩
      rw [hC] at hC'
      exact Particular.noConfusion hC'

/-- Without overflow. For `s ≠ 0`, `solvehomogeneous(r, s, a0, a1)` and
`solvenonhomogeneous(r, s, t, a0, a1)` run to completion without raising any error; the
denominator of the particular coefficient is nonzero in the branch that uses it. -/
theorem solvers_total (r s t a0 a1 : Int) (hs : s ≠ 0) :
    (∃ h, solvehomogeneous r s a0 a1 = .ok h) ∧
    (∃ sol, solvenonhomogeneous r s t a0 a1 = .ok sol ∧
      ((∃ C, sol.particular = .constant C ∧ 1 - r - s ≠ 0) ∨
        (∃ C, sol.particular = .nSquared C ∧ r + 4 * s ≠ 0) ∨
        (∃ C, sol.particular = .nLinear C ∧ r + 2 * s ≠ 0))) := by
  constructor
  · obtain ⟨D, x0, x1, hD, hf, g0, g1, _, _, hne, hn0, _⟩ := findroots_value r s
    obtain ⟨h, e1, _⟩ := homogeneousPart_value D hD x0 x1 (splnum1 a0) (splnum1 a1) g0 g1
      (good_splnum1 D a0) (good_splnum1 D a1) hne (hn0 hs)
    refine ⟨h, ?_⟩
    show (findroots r s >>= fun roots =>
      homogeneousPart roots.1 roots.2 (splnum1 a0) (splnum1 a1)) = _
    rw [bind_ok _ _ _ hf]
    exact e1
  · obtain ⟨D, x0, x1, C, h, _, _, _, _, _, hcase⟩ := solvenonhomogeneous_spec r s t a0 a1 hs
    rcases hcase with ⟨e, hden, _, _⟩ | ⟨e, ⟨hr, hs'⟩, _, _⟩ | ⟨e, ⟨_, hden⟩, _, _⟩
    · exact ⟨_, e, Or.inl ⟨C, rfl, hden⟩⟩
    · exact ⟨_, e, Or.inr (Or.inl ⟨C, rfl, by omega⟩)⟩
    · exact ⟨_, e, Or.inr (Or.inr ⟨C, rfl, hden⟩)⟩

/-! ## The four-argument constructor -/

/-- C6. The constructor does not fold the perfect square `9`: `splnum(0, 1, 9, 1)` keeps the
fields `(0, 1, 9, 1)`, because `checkC` searches a root of `c` in `[0, 1]` only, and the result
is not `==` to `splnum(3, 0, 0, 1)`. -/
theorem splnum4_no_fold_nine :
    splnum4 0 1 9 1 = .ok ⟨0, 1, 9, 1⟩ ∧ splnum4 3 0 0 1 = .ok ⟨3, 0, 0, 1⟩ ∧
      eq ⟨0, 1, 9, 1⟩ ⟨3, 0, 0, 1⟩ = false :=
  ⟨rfl, rfl, rfl⟩

/-- C7. The constructor can store a negative denominator: `splnum(1, -1, 5, 2)`, the second
root built by `findroots(1, 1)`, has the fields `(-1, 1, 5, -2)`, because
`std::__gcd(std::__gcd(1, -1), 2)` is `-1`; likewise `splnum(-3, 0, 0, 2)` has the fields
`(3, 0, 0, -2)`. -/
theorem splnum4_negative_denominator :
    __gcd (__gcd 1 (-1)) 2 = -1 ∧ splnum4 1 (-1) 5 2 = .ok ⟨-1, 1, 5, -2⟩ ∧
      findroots 1 1 = .ok (⟨1, 1, 5, 2⟩, ⟨-1, 1, 5, -2⟩) ∧
      splnum4 (-3) 0 0 2 = .ok ⟨3, 0, 0, -2⟩ :=
  ⟨rfl, rfl, rfl, rfl⟩

/-- C8. For `d ≠ 0` the constructor `splnum(a, b, c, d)` stores fields `(a', b', d')` with
`gcd(|a'|, |b'|, |d'|) = 1`; when `c` is not folded (the stored `c` is the given one) they are
proportional to the inputs: `a' * d = a * d'` and `b' * d = b * d'`. -/
theorem splnum4_gcd_reduction (a b c d : Int) (hd : d ≠ 0) :
    ∃ x, splnum4 a b c d = .ok x ∧
      Nat.gcd (Nat.gcd x.a.natAbs x.b.natAbs) x.d.natAbs = 1 ∧
      (x.c = c → x.a * d = a * x.d ∧ x.b * d = b * x.d) := by
  obtain ⟨x, h1, _, h3, h4, h5⟩ := splnum4_spec a b c d hd
  refine ⟨x, h1, ?_, fun hc => ?_⟩
  · rw [← natAbs_gcd3, h4]; rfl
  · rcases h5 with ⟨_, _, e3, e4⟩ | ⟨e1, e2, _, _⟩
    · exact ⟨e3, e4⟩
    · rw [e2, e1] at hc; exact absurd hc (by decide)

/-- C8, at `splnum(4, 6, 5, 8)`, whose fields are `(2, 3, 5, 4)`. -/
theorem splnum4_gcd_reduction_witness :
    (8 : Int) ≠ 0 ∧ splnum4 4 6 5 8 = .ok ⟨2, 3, 5, 4⟩ ∧
      ∃ x, splnum4 4 6 5 8 = .ok x ∧ Nat.gcd (Nat.gcd x.a.natAbs x.b.natAbs) x.d.natAbs = 1 ∧
        (x.c = 5 → x.a * 8 = 4 * x.d ∧ x.b * 8 = 6 * x.d) :=
  ⟨by decide, rfl, splnum4_gcd_reduction 4 6 5 8 (by decide)⟩

/-- C9, as stated, fails: `splnum(1, 1, 0, 1)` stores `c = 0` and `b = 1`. -/
theorem splnum4_rational_collapse_counterexample :
    ¬ (∀ x, splnum4 1 1 0 1 = .ok x → x.c = 0 → x.b = 0) := by
  intro h
  exact absurd (h ⟨1, 1, 0, 1⟩ rfl rfl) (by decide)

/-- C9, amended. For `d ≠ 0`: the value built by `splnum(a, b, c, d)` satisfies "stored `c = 0`
implies stored `b = 0`" unless it is given `c = 0` together with `b ≠ 0`; the values built by
`splnum(a, d)` and `splnum(a)` have `b = 0` and `c = 0`. -/
theorem rational_collapse (a b c d : Int) (hd : d ≠ 0) :
    (∃ x, splnum4 a b c d = .ok x ∧ ((c ≠ 0 ∨ b = 0) → x.c = 0 → x.b = 0)) ∧
    (∃ y, splnum2 a d = .ok y ∧ y.b = 0 ∧ y.c = 0) ∧
    ((splnum1 a).b = 0 ∧ (splnum1 a).c = 0) := by
  refine ⟨?_, ?_, rfl, rfl⟩
  · obtain ⟨x, h1, h2, _, _, h5⟩ := splnum4_spec a b c d hd
    refine ⟨x, h1, fun hcb hc => ?_⟩
    rcases h5 with ⟨_, e2, _, e4⟩ | ⟨_, _, e3, _⟩
    · rcases hcb with h | h
      · exact absurd (e2.symm.trans hc) h
      · subst h
        rcases mul_eq_zero.mp (e4.trans (zero_mul _)) with h | h
        · exact h
        · exact absurd h hd
    · exact e3
  · unfold splnum2
    rw [if_neg hd]
    split_ifs <;> exact ⟨_, rfl, by unfold reduce2; simp only []; split_ifs <;> exact ⟨rfl, rfl⟩⟩

/-- C9, amended, at `splnum(0, 1, 1, 3)`, `splnum(0, 3)` and `splnum(0)`. -/
theorem rational_collapse_witness :
    (3 : Int) ≠ 0 ∧ splnum4 0 1 1 3 = .ok ⟨1, 0, 0, 3⟩ ∧
      ((∃ x, splnum4 0 1 1 3 = .ok x ∧ (((1 : Int) ≠ 0 ∨ (1 : Int) = 0) → x.c = 0 → x.b = 0)) ∧
        (∃ y, splnum2 0 3 = .ok y ∧ y.b = 0 ∧ y.c = 0) ∧
        ((splnum1 0).b = 0 ∧ (splnum1 0).c = 0)) :=
  ⟨by decide, rfl, rational_collapse 0 1 1 3 (by decide)⟩

/-- C10. For `d ≠ 0`, rebuilding `splnum(a, b, c, d)` from its own stored fields gives exactly
the same stored fields, and the value is `==` to itself. -/
theorem splnum4_idempotent (a b c d : Int) (hd : d ≠ 0) :
    ∃ x, splnum4 a b c d = .ok x ∧ splnum4 x.a x.b x.c x.d = .ok x ∧ eq x x = true := by
  obtain ⟨x, h1, h2, h3, h4, _⟩ := splnum4_spec a b c d hd
  exact ⟨x, h1, splnum4_fixed x h2 h3 h4, by simp [eq, mul_comm]⟩

/-- C10, at `splnum(-3, 0, 0, 2)`, whose stored fields are `(3, 0, 0, -2)`. -/
theorem splnum4_idempotent_witness :
    (2 : Int) ≠ 0 ∧ splnum4 (-3) 0 0 2 = .ok ⟨3, 0, 0, -2⟩ ∧
      ∃ x, splnum4 (-3) 0 0 2 = .ok x ∧ splnum4 x.a x.b x.c x.d = .ok x ∧ eq x x = true :=
  ⟨by decide, rfl, splnum4_idempotent (-3) 0 0 2 (by decide)⟩

/-! ## Algebraic laws of the operators -/

/-- C14. For all integers `r`, `s`, `t`, `a0`, `a1` (also `s = 0`), neither `solvehomogeneous`
nor `solvenonhomogeneous` raises the error of different kinds: each returns a result or raises
the division-by-zero error. -/
theorem solvers_never_mix_kinds (r s t a0 a1 : Int) :
    solvehomogeneous r s a0 a1 ≠ .error .differentKinds ∧
    solvenonhomogeneous r s t a0 a1 ≠ .error .differentKinds ∧
    NoKind (solvehomogeneous r s a0 a1) ∧ NoKind (solvenonhomogeneous r s t a0 a1) :=
  ⟨noKind_ne _ (solvers_noKind r s t a0 a1).1, noKind_ne _ (solvers_noKind r s t a0 a1).2,
    (solvers_noKind r s t a0 a1).1, (solvers_noKind r s t a0 a1).2⟩

/-- C15. The constructors `splnum(a, b, c, d)` and `splnum(a, d)` raise the division-by-zero
error exactly when `d = 0`; when `d ≠ 0` they return a value, and the gcd computed on line 74,
the gcd computed on line 106 and the gcd computed by `checkC` on line 185 are all nonzero. -/
theorem construct_division_by_zero (a b c d : Int) :
    (splnum4 a b c d = .error .divisionByZero ↔ d = 0) ∧
    (splnum2 a d = .error .divisionByZero ↔ d = 0) ∧
    (d ≠ 0 →
      (∃ x, splnum4 a b c d = .ok x) ∧ (∃ y, splnum2 a d = .ok y) ∧
      ∀ a' b' d' : Int, (a', b', d') = (if d < 0 then (-a, -b, -d) else (a, b, d)) →
        __gcd (__gcd a' b') d' ≠ 0 ∧ __gcd a' d' ≠ 0 ∧
        __gcd (a'.tdiv (__gcd (__gcd a' b') d') + b'.tdiv (__gcd (__gcd a' b') d') * sqrt c 0 1)
          (d'.tdiv (__gcd (__gcd a' b') d')) ≠ 0) := by
  refine ⟨?_, ?_, fun hd => ⟨splnum4_exists_ok a b c d hd, ?_, ?_⟩⟩
  · rw [splnum4_error_iff]
    exact ⟨fun h => h.1, fun h => ⟨h, rfl⟩⟩
  · constructor
    · intro h
      by_contra hd
      rw [splnum2_ok a d hd] at h
      exact Except.noConfusion h
    · rintro rfl
      rfl
  · exact ⟨_, splnum2_ok a d hd⟩
  · intro a' b' d' h
    have hd' : d' ≠ 0 := by
      by_cases hneg : d < 0
      · rw [if_pos hneg] at h
        have := (Prod.mk.inj (Prod.mk.inj h).2).2
        omega
      · rw [if_neg hneg] at h
        have := (Prod.mk.inj (Prod.mk.inj h).2).2
        omega
    exact ⟨gcd_ne_zero_right _ _ hd', gcd_ne_zero_right _ _ hd',
      gcd_ne_zero_right _ _ (tdiv_ne_zero_of_dvd d' _ hd' (gcd_dvd_right _ _))⟩

/-- C15, at `splnum(1, 0, 0, 0)`, which raises, and at `splnum(4, 6, 5, 8)`, which does not. -/
theorem construct_division_by_zero_witness :
    splnum4 1 0 0 0 = .error .divisionByZero ∧ (8 : Int) ≠ 0 ∧
      (∃ x, splnum4 4 6 5 8 = .ok x) ∧ (∃ y, splnum2 4 8 = .ok y) :=
  ⟨(construct_division_by_zero 1 0 0 0).1.mpr rfl, by decide,
    ((construct_division_by_zero 4 6 5 8).2.2 (by decide)).1,
    ((construct_division_by_zero 4 6 5 8).2.2 (by decide)).2.1⟩

/-- C16. The method `inverse()` raises the division-by-zero error on a value that is not
zero: `splnum(2, 1, 4, 1)` is stored as `(2, 1, 4, 1)` (`checkC` does not fold `c = 4`), its
value is `(2 + 1 * 2) / 1 = 4`, and `a * a - b * b * c = 0`. -/
theorem inverse_raises_on_nonzero :
    splnum4 2 1 4 1 = .ok ⟨2, 1, 4, 1⟩ ∧ inverse ⟨2, 1, 4, 1⟩ = .error .divisionByZero ∧
      sqrt 4 0 4 = 2 ∧ ((2 : Int) + 1 * 2) / 1 = 4 :=
  ⟨rfl, rfl, rfl, rfl⟩

/-! ## Rendering -/

/-- C17. The text written for `splnum(0)` is empty, not `0`: no branch of `operator<<` writes
anything when `a = 0` and `b = 0`, except ` / d` when `d ≠ 1`.  The coefficient `u` of the
scenario `r = 2`, `s = -1`, `a0 = 0`, `a1 = 1` is such a value. -/
theorem print_zero_is_empty :
    print (splnum1 0) = "" ∧ print (splnum1 0) ≠ "0" ∧
      solvehomogeneous 2 (-1) 0 1 = .ok (.repeated (splnum1 0) ⟨1, 0, 0, 1⟩ ⟨1, 0, 0, 1⟩) ∧
      ∀ x : splnum, x.a = 0 → x.b = 0 →
        print x = if x.d ≠ 1 then " / " ++ toString x.d else "" :=
  ⟨by decide, by decide, rfl, print_of_zero⟩

/-! ## The two-argument constructor -/

/-- C18. For `d ≠ 0`, `splnum(a, d)` stores `b = 0`, `c = 0`, a denominator `d' > 0` and a
numerator `a'` with `gcd(|a'|, d') = 1` and `a' * d = a * d'`. -/
theorem splnum2_lowest_terms (a d : Int) (hd : d ≠ 0) :
    ∃ x, splnum2 a d = .ok x ∧ x.b = 0 ∧ x.c = 0 ∧ 0 < x.d ∧
      Nat.gcd x.a.natAbs x.d.natAbs = 1 ∧ x.a * d = a * x.d := by
  rw [splnum2_ok a d hd]
  by_cases h : d < 0
  · rw [if_pos h]
    obtain ⟨k1, k2, k3, k4, k5⟩ := reduce2_spec (-a) (-d) (by omega)
    exact ⟨_, rfl, k3, k2, k1, k5, by linear_combination -k4⟩
  · rw [if_neg h]
    obtain ⟨k1, k2, k3, k4, k5⟩ := reduce2_spec a d hd
    exact ⟨_, rfl, k3, k2, k1, k5, k4⟩

/-- C18, at `splnum(-1, -2)`, whose fields are `(1, 0, 0, 2)`. -/
theorem splnum2_lowest_terms_witness :
    (-2 : Int) ≠ 0 ∧ splnum2 (-1) (-2) = .ok ⟨1, 0, 0, 2⟩ ∧
      ∃ x, splnum2 (-1) (-2) = .ok x ∧ x.b = 0 ∧ x.c = 0 ∧ 0 < x.d ∧
        Nat.gcd x.a.natAbs x.d.natAbs = 1 ∧ x.a * (-2) = (-1) * x.d :=
  ⟨by decide, rfl, splnum2_lowest_terms (-1) (-2) (by decide)⟩

/-! ## The program over 32-bit `int`

The probe `mid * mid` of `sqrt` exceeds the range of `int` as soon as `mid ≥ 46341`, which
happens in `sqrt(m, 0, m)` from `m = 92682` on.  The theorems below evaluate the program at
inputs where this changes its result. -/

theorem machine_sqrtFuel_step (fuel : Nat) (m start end_ : Int) :
    Machine.sqrtFuel (fuel + 1) m start end_ =
      if start > end_ then some (-1)
      else if start = end_ then
        (if Machine.wrap (start * start) = m then some start else some (-1))
      else if Machine.wrap ((Machine.wrap (start + end_)).tdiv 2 *
          (Machine.wrap (start + end_)).tdiv 2) = m then
        some ((Machine.wrap (start + end_)).tdiv 2)
      else if Machine.wrap ((Machine.wrap (start + end_)).tdiv 2 *
          (Machine.wrap (start + end_)).tdiv 2) > m then
        Machine.sqrtFuel fuel m start (Machine.wrap ((Machine.wrap (start + end_)).tdiv 2 - 1))
      else
        Machine.sqrtFuel fuel m (Machine.wrap ((Machine.wrap (start + end_)).tdiv 2 + 1))
          end_ := rfl

theorem machine_wrap_of_range (x : Int) (h0 : -2147483648 ≤ x) (h1 : x < 2147483648) :
    Machine.wrap x = x := by
  unfold Machine.wrap
  omega

/-- Over 32-bit `int` the recursion of `sqrt` terminates on every range `[start, end]` with
`0 ≤ start` and `end < 2^30`: the budget `end - start + 1` is enough. -/
theorem machine_sqrtFuel_total (fuel : Nat) (m start end_ : Int) (h0 : 0 ≤ start)
    (h1 : end_ < 1073741824) (hf : (end_ - start).toNat + 1 ≤ fuel) :
    ∃ v, Machine.sqrtFuel fuel m start end_ = some v := by
  induction fuel generalizing start end_ with
  | zero => omega
  | succ n ih =>
    rw [machine_sqrtFuel_step]
    by_cases hlt : start < end_
    · have hw : Machine.wrap (start + end_) = start + end_ :=
        machine_wrap_of_range _ (by omega) (by omega)
      have hb := tdiv_two_bounds (start + end_)
      rw [hw]
      have hm1 : Machine.wrap ((start + end_).tdiv 2 - 1) = (start + end_).tdiv 2 - 1 :=
        machine_wrap_of_range _ (by omega) (by omega)
      have hp1 : Machine.wrap ((start + end_).tdiv 2 + 1) = (start + end_).tdiv 2 + 1 :=
        machine_wrap_of_range _ (by omega) (by omega)
      rw [hm1, hp1]
      split_ifs
      · exact ⟨_, rfl⟩
      · exact ⟨_, rfl⟩
      · exact ⟨_, rfl⟩
      · exact ⟨_, rfl⟩
      · exact ih _ _ h0 (by omega) (by omega)
      · exact ih _ _ (by omega) h1 (by omega)
    · split_ifs <;> first | exact ⟨_, rfl⟩ | omega

theorem tdiv_two_nonneg (x : Int) (h : 0 ≤ x) : 2 * x.tdiv 2 ≤ x ∧ x - 1 ≤ 2 * x.tdiv 2 := by
  rw [Int.tdiv_eq_ediv h (by decide)]
  omega

/-- Over 32-bit `int`, the search agrees with the search over unbounded integers on every range
with `0 ≤ start` and `start + end ≤ 92681`, for `m ≤ 92681`: no probe overflows. -/
theorem machine_sqrtFuel_small (fuel : Nat) (m start end_ : Int) (h0 : 0 ≤ start)
    (h1 : start + end_ ≤ 92681) (hm : m ≤ 92681) :
    Machine.sqrtFuel fuel m start end_ = sqrtFuel fuel m start end_ := by
  induction fuel generalizing start end_ with
  | zero => rfl
  | succ n ih =>
    rw [machine_sqrtFuel_step, sqrtFuel_step]
    by_cases hgt : start > end_
    · rw [if_pos hgt, if_pos hgt]
    · rw [if_neg hgt, if_neg hgt]
      by_cases heq : start = end_
      · rw [if_pos heq, if_pos heq]
        have hs : start ≤ 46340 := by omega
        have : start * start ≤ 46340 * 46340 := mul_le_mul hs hs h0 (by omega)
        have h2 : 0 ≤ start * start := mul_nonneg h0 h0
        rw [machine_wrap_of_range _ (by omega) (by omega)]
      · rw [if_neg heq, if_neg heq]
        have hb := tdiv_two_nonneg (start + end_) (by omega)
        have hw : Machine.wrap (start + end_) = start + end_ :=
          machine_wrap_of_range _ (by omega) (by omega)
        rw [hw]
        have hmid0 : 0 ≤ (start + end_).tdiv 2 := by omega
        have hmid1 : (start + end_).tdiv 2 ≤ 46340 := by omega
        have hsq1 : (start + end_).tdiv 2 * (start + end_).tdiv 2 ≤ 46340 * 46340 :=
          mul_le_mul hmid1 hmid1 hmid0 (by omega)
        have hsq0 : 0 ≤ (start + end_).tdiv 2 * (start + end_).tdiv 2 :=
          mul_nonneg hmid0 hmid0
        rw [machine_wrap_of_range ((start + end_).tdiv 2 * (start + end_).tdiv 2) (by omega)
          (by omega), machine_wrap_of_range ((start + end_).tdiv 2 - 1) (by omega) (by omega),
          machine_wrap_of_range ((start + end_).tdiv 2 + 1) (by omega) (by omega)]
        by_cases e1 : (start + end_).tdiv 2 * (start + end_).tdiv 2 = m
        · rw [if_pos e1, if_pos e1]
        · rw [if_neg e1, if_neg e1]
          by_cases e2 : (start + end_).tdiv 2 * (start + end_).tdiv 2 > m
          · rw [if_pos e2, if_pos e2]
            exact ih _ _ h0 (by omega)
          · rw [if_neg e2, if_neg e2]
            have hsmall : (start + end_).tdiv 2 ≤ 304 := by
              by_contra hc
              have h305 : 305 ≤ (start + end_).tdiv 2 := by omega
              have : 305 * 305 ≤ (start + end_).tdiv 2 * (start + end_).tdiv 2 :=
                mul_le_mul h305 h305 (by omega) hmid0
              omega
            exact ih _ _ (by omega) (by omega)

/-- Over 32-bit `int`, `sqrt(m, 0, m)` is the function over unbounded integers for every
`m ≤ 92681`. -/
theorem machine_sqrt_small (m : Int) (hm : m ≤ 92681) : Machine.sqrt m 0 m = sqrt m 0 m := by
  unfold Machine.sqrt sqrt
  by_cases h : 0 ≤ m
  · rw [machine_sqrtFuel_small _ m 0 m (le_refl _) (by omega) hm]
  · have hz : ((m - 0).toNat + 1) = 0 + 1 := by omega
    rw [hz, machine_sqrtFuel_step, sqrtFuel_step, if_pos (by omega), if_pos (by omega)]

/-- C5. Over 32-bit `int`, `sqrt(93025, 0, 93025)` returns `-1`, after 17 calls, although
`93025 = 305 * 305`: its first probe is `mid = 46512`, and `mid * mid = 2163366144` exceeds
`INT_MAX` and wraps to `-2131601152`, so the search moves above every root. -/
theorem machine_sqrt_misses_square :
    Machine.sqrtFuel 17 93025 0 93025 = some (-1) ∧ Machine.sqrt 93025 0 93025 = -1 ∧
      (305 : Int) * 305 = 93025 ∧ (46512 : Int) * 46512 = 2163366144 ∧
      Machine.wrap (46512 * 46512) = -2131601152 :=
  ⟨rfl, rfl, rfl, rfl, rfl⟩

/-- C4. Over 32-bit `int`, `findroots(627, 24)` returns `33083` and `-32456`, which are not
roots of `x^2 - 627 x - 24`: the discriminant is `393225`, `sqrt` accepts the probe `65539`
because `65539 * 65539 = 2^32 + 393225` wraps to `393225`, and `x * x - r * x - s` has the
value `2^30` at both returned values. -/
theorem machine_findroots_not_roots :
    Machine.findroots 627 24 = .ok (⟨33083, 0, 0, 1⟩, ⟨-32456, 0, 0, 1⟩) ∧
      Machine.sqrtFuel 19 393225 0 393225 = some 65539 ∧
      Machine.wrap (65539 * 65539) = 393225 ∧
      Machine.characteristic 627 24 ⟨33083, 0, 0, 1⟩ = .ok ⟨1073741824, 0, 0, 1⟩ ∧
      Machine.characteristic 627 24 ⟨-32456, 0, 0, 1⟩ = .ok ⟨1073741824, 0, 0, 1⟩ :=
  ⟨rfl, rfl, rfl, rfl, rfl⟩

/-- C2. Over 32-bit `int`, `solvenonhomogeneous(307, -306, 1, 0, 1)` raises the
division-by-zero error, so no solution is printed: `sqrt` misses the root of the discriminant
`93025`, the roots are kept as surds, none is `==` to `1`, and the branch without resonance
builds `splnum(1, 0)`. -/
theorem machine_solvenonhomogeneous_no_solution :
    (-306 : Int) ≠ 0 ∧
      Machine.solvenonhomogeneous 307 (-306) 1 0 1 = .error .divisionByZero ∧
      ¬ ∃ sol, Machine.solvenonhomogeneous 307 (-306) 1 0 1 = .ok sol :=
  ⟨by decide, rfl, fun ⟨_, h⟩ =>
    Except.noConfusion
      (show (Except.error Error.divisionByZero : Except Error Nonhomogeneous) = .ok _ from h)⟩

/-- C3. Over 32-bit `int`, for `(r, s, t) = (307, -306, 1)` no particular term is printed,
whatever `a0` and `a1`: the branch without resonance is taken although `1 - r - s = 0`, and
its coefficient `t / (1 - r - s)` is `splnum(1, 0)`. -/
theorem machine_no_particular_term :
    (-306 : Int) ≠ 0 ∧ (1 : Int) - 307 - -306 = 0 ∧
      Machine.splnum2 1 (Machine.wrap (1 - 307 - -306)) = .error .divisionByZero ∧
      ∀ a0 a1 : Int, Machine.solvenonhomogeneous 307 (-306) 1 a0 a1 = .error .divisionByZero :=
  ⟨by decide, rfl, rfl, fun _ _ => rfl⟩

/-- C19. Over 32-bit `int`, for `(r, s) = (307, -306)` the test of the branch without
resonance succeeds although `1 - r - s = 0`: `findroots` returns the surds
`(307 ± root(93025)) / 2`, and no value with `c ≠ 0` is `==` to `splnum(1)`. -/
theorem machine_resonance_missed :
    Machine.findroots 307 (-306) = .ok (⟨307, 1, 93025, 2⟩, ⟨-307, 1, 93025, -2⟩) ∧
      (Machine.ne ⟨307, 1, 93025, 2⟩ (splnum1 1) &&
        Machine.ne ⟨-307, 1, 93025, -2⟩ (splnum1 1)) = true ∧
      (1 : Int) - 307 - -306 = 0 ∧ (307 : Int) + -306 = 1 ∧ (-306 : Int) ≠ -1 :=
  ⟨rfl, rfl, rfl, rfl, by decide⟩

/-- C20. Over 32-bit `int`, `solvenonhomogeneous(307, -306, t, a0, a1)` raises the
division-by-zero error for every `t`, `a0` and `a1`, although `s ≠ 0`. -/
theorem machine_solvenonhomogeneous_raises :
    (-306 : Int) ≠ 0 ∧
      ∀ t a0 a1 : Int,
        Machine.solvenonhomogeneous 307 (-306) t a0 a1 = .error .divisionByZero :=
  ⟨by decide, fun _ _ _ => rfl⟩

end Recsolver
